import Mathlib

/-!
The `flow` package of gopheramework.

A shallow embedding of `flow/flow.go`, `flow/labelled.go` and `flow/flow_log.go`.

A Go `*Flow` is a pointer to a mutable record, and a flow can be reached again
through the errors and flows stored in it, so the embedding keeps the records in
a heap (`Heap`) and stores pointers (`FlowRef`) in the lists.  Methods that only
touch the receiver's fields are functions on the record; methods that need the
receiver's identity take the pointer `self` next to the record; the rendering
methods walk the heap and take a bound on the call depth.
-/

namespace Gopheramework

/-! ## Data model -/

/-- FlowOptions of `flow.go`: the options a flow is created with. -/
structure FlowOptions where
  FlowCheckWriteStack : Bool
  PrintStderrOnAbort : Bool
deriving DecidableEq

/-- A `*Flow`: the address of a flow record in the heap. -/
abbrev FlowRef := Nat

/-- A non-nil value of Go's interface `error`, by dynamic type:
* `ext msg text`: an error from outside the package, whose `Error()` returns `msg`
  and which has a method `GetText()` returning `t` exactly when `text = some t`;
* `labelled`: a `LabelledError` value (fields `Err`, `Label`, `Flow`, `Trace`,
  a nil trace being `none`);
* `flow p`: a `*Flow`.
A nil `error` is `none : Option GoError`. -/
inductive GoError where
  | ext (msg : String) (text : Option String)
  | labelled (Err : GoError) (Label : String) (Flow : String) (Trace : Option String)
  | flow (p : FlowRef)
deriving DecidableEq

/-- LabelledError of `labelled.go`. -/
structure LabelledError where
  Err : GoError
  Label : String
  Flow : String
  Trace : Option String
deriving DecidableEq

/-- A `LabelledError` stored in a variable of type `error`. -/
def LabelledError.toError (erro : LabelledError) : GoError :=
  .labelled erro.Err erro.Label erro.Flow erro.Trace

/-- An element of `children []interface{}`: the code only ever stores an `error`
(which a `*Flow` is as well) or a `string`. -/
inductive Child where
  | error (e : GoError)
  | note (s : String)
deriving DecidableEq

/-- Flow of `flow.go`: the record behind a `*Flow`. -/
structure Flow where
  Name : String
  options : FlowOptions
  children : List Child
  errors : List GoError
  flows : List FlowRef
  logs : List String
deriving DecidableEq

/-- The flow records allocated so far; a `FlowRef` is an index into it. -/
abbrev Heap := List Flow

/-- Dereferences a pointer: `none` for a pointer to nothing (Go's nil). -/
def Heap.deref (h : Heap) (p : FlowRef) : Option Flow := h[p]?

/-- Writes a record through a pointer. -/
def Heap.store (h : Heap) (p : FlowRef) (fl : Flow) : Heap := h.set p fl

/-- Allocates a record (`&Flow{...}`) and returns its address. -/
def Heap.alloc (h : Heap) (fl : Flow) : Heap × FlowRef := (h ++ [fl], h.length)

/-! ## flow.go: construction and the private mutators -/

/-- The composite literal of `FlowOptions.new`. -/
def FlowOptions.newRecord (options : FlowOptions) (name : String) : Flow :=
  { options := options, Name := name, children := [], flows := [], logs := [], errors := [] }

/-- Method `new` of FlowOptions: `return &Flow{...}`. -/
def FlowOptions.new (options : FlowOptions) (h : Heap) (name : String) : Heap × FlowRef :=
  h.alloc (options.newRecord name)

/-- Method `New` of FlowOptions. -/
def FlowOptions.New (options : FlowOptions) (h : Heap) (name : String) : Heap × FlowRef :=
  options.new h name

/-- NewDefault of `flow.go`. -/
def NewDefault (h : Heap) (name : String) : Heap × FlowRef :=
  FlowOptions.New { FlowCheckWriteStack := true, PrintStderrOnAbort := false } h name

/-- NewDebug of `flow.go`. -/
def NewDebug (h : Heap) (name : String) : Heap × FlowRef :=
  FlowOptions.New { FlowCheckWriteStack := true, PrintStderrOnAbort := false } h name

/-- Method `add`. -/
def Flow.add (fl : Flow) (i : Child) : Flow :=
  { fl with children := fl.children ++ [i] }

/-- Method `addError`: the updated record and the returned bool. -/
def Flow.addError (fl : Flow) (err : Option GoError) : Flow × Bool :=
  match err with
  | none => (fl, false)
  | some e =>
    let fl1 := { fl with errors := fl.errors ++ [e] }
    (fl1.add (.error e), true)

/-- Method `addFlow`; `newFlow` is the pointer that is stored. -/
def Flow.addFlow (fl : Flow) (newFlow : FlowRef) : Flow :=
  let fl1 := { fl with flows := fl.flows ++ [newFlow] }
  fl1.add (.error (.flow newFlow))

/-- Method `addLog`. -/
def Flow.addLog (fl : Flow) (note : String) : Flow :=
  let fl1 := { fl with logs := fl.logs ++ [note] }
  fl1.add (.note note)

/-- Method `getError`; `self` is the receiver pointer that is returned as an error. -/
def Flow.getError (self : FlowRef) (fl : Flow) : Option GoError :=
  if fl.errors.length > 0 then some (.flow self) else none

/-! ## flow.go: the public mutators -/

/-- Method `Add`. -/
def Flow.Add (fl : Flow) (err : Option GoError) : Flow × Bool :=
  fl.addError err

/-- Method `Check`; `stack` is what `debug.Stack()` returns at the call. -/
def Flow.Check (fl : Flow) (err : Option GoError) (label : String) (stack : String) :
    Flow × Bool :=
  match err with
  | none => (fl, false)
  | some e =>
    let erro : LabelledError := { Err := e, Label := label, Flow := fl.Name, Trace := none }
    let erro := if fl.options.FlowCheckWriteStack then { erro with Trace := some stack } else erro
    ((fl.addError (some erro.toError)).1, true)

/-- The error made by `errors.New("flow.Must fail")`. -/
def mustFail : GoError := .ext "flow.Must fail" none

/-- Method `Must`. -/
def Flow.Must (fl : Flow) (check : Bool) (message : String) (stack : String) : Flow × Bool :=
  if !check then
    ((fl.Check (some mustFail) message stack).1, true)
  else (fl, false)

/-- Method `Log`. -/
def Flow.Log (fl : Flow) (note : String) : Flow :=
  fl.addLog note

/-- Method `LogWithTime` of `flow_log.go`; `now` is
`time.Now().UTC().Format(time.RFC3339)` at the call. -/
def Flow.LogWithTime (fl : Flow) (note : String) (now : String) : Flow :=
  fl.Log (note ++ " @" ++ now)

/-- Method `Done`. -/
def Flow.Done (self : FlowRef) (fl : Flow) (label : String) : Option GoError :=
  match Flow.getError self fl with
  | some err =>
    some (LabelledError.toError { Err := err, Label := label, Flow := fl.Name, Trace := none })
  | none => none

/-! ## labelled.go -/

/-- LabelError of `labelled.go`. -/
def LabelError (err : Option GoError) (label : String) : Option GoError :=
  match err with
  | none => none
  | some e =>
    some (LabelledError.toError { Err := e, Label := label, Flow := "", Trace := none })

/-- Method `GetFlow`. -/
def LabelledError.GetFlow (erro : LabelledError) : String := erro.Flow

/-- Method `GetLabel`. -/
def LabelledError.GetLabel (erro : LabelledError) : String := erro.Label

/-! ## Rendering -/

/-- A `for ... range` loop that appends the result of one call per element:
there is a result only when every call returns. -/
def collect {α : Type} (f : α → Option String) : List α → Option (List String)
  | [] => some []
  | a :: as =>
    match f a with
    | none => none
    | some s =>
      match collect f as with
      | none => none
      | some ss => some (s :: ss)

/-- The type switch in the loop of `Flow.Error`, for one child; `error` is the
call `ch.Error()`. -/
def compactChild (error : GoError → Option String) : Child → Option String
  | .error ch => error ch
  | .note ch => some ("note(" ++ ch ++ ")")

/-- The call `err.Error()` on a non-nil `error`, dispatched on the dynamic type:
`LabelledError.Error` of `labelled.go` and `Flow.Error` of `flow.go` (whose first
loop calls `Error()` on every element of `errors` and drops the strings).  The
number is a bound on the depth of nested calls: `none` means that the call did
not return within it (or ran into a pointer to nothing). -/
def GoError.Error (h : Heap) : Nat → GoError → Option String
  | 0, _ => none
  | _ + 1, .ext msg _ => some msg
  | n + 1, .labelled err label _ _ =>
    match GoError.Error h n err with
    | none => none
    | some s => some (label ++ ": " ++ s)
  | n + 1, .flow p =>
    match h.deref p with
    | none => none
    | some fl =>
      match collect (GoError.Error h n) fl.errors with
      | none => none
      | some _ =>
        match collect (compactChild (GoError.Error h n)) fl.children with
        | none => none
        | some childStrings =>
          some ("flow(" ++ fl.Name ++ "): \x7b" ++ ";".intercalate childStrings ++ "\x7d")

/-- Method `Error` of `*Flow`. -/
def Flow.Error (h : Heap) (fuel : Nat) (self : FlowRef) : Option String :=
  GoError.Error h fuel (.flow self)

/-- Method `Error` of LabelledError. -/
def LabelledError.Error (h : Heap) (fuel : Nat) (erro : LabelledError) : Option String :=
  GoError.Error h fuel erro.toError

/-- Modelled from the spec: the interface `Error` of package `flow`, which
`LabelledError.GetText` asserts on and whose declaration is not in the sources;
by the spec an error satisfies it when it "supports human-readable rendering",
that is, has `GetText` like `core.Error`: a `*Flow`, a `LabelledError`, or an
outside error with that method. -/
def GoError.hasGetText : GoError → Bool
  | .ext _ text => text.isSome
  | .labelled _ _ _ _ => true
  | .flow _ => true

/-- The type switch in the loop of `Flow.GetText`, for one child: `getText` is
the call `ch.GetText()` (case `core.Error`), `error` the call `ch.Error()` (case
`error`), `indent` is `rwstrings.Indent`. -/
def textChild (indent : String → String) (getText error : GoError → Option String) :
    Child → Option String
  | .error ch =>
    if ch.hasGetText then
      match getText ch with
      | none => none
      | some t => some ("\t- " ++ indent t)
    else
      match error ch with
      | none => none
      | some s => some ("\t- error: " ++ indent s ++ "\n")
  | .note ch => some ("\t- log: " ++ ch ++ "\n")

/-- The call `GetText()` on an error that has the method, dispatched on the
dynamic type: `LabelledError.GetText` of `labelled.go` and `Flow.GetText` of
`flow.go`.  `indent` is `rwstrings.Indent`, which is not part of the repository.
The number bounds the depth of nested calls as in `GoError.Error`. -/
def GoError.GetText (indent : String → String) (h : Heap) : Nat → GoError → Option String
  | 0, _ => none
  | _ + 1, .ext _ text => text
  | n + 1, .labelled err label _ trace =>
    if err.hasGetText then
      match GoError.GetText indent h n err with
      | none => none
      | some t => some (label ++ ": " ++ t)
    else
      match GoError.Error h n err with
      | none => none
      | some s =>
        let errstr := label ++ ": " ++ s ++ "\n"
        match trace with
        | some tr => some (errstr ++ (indent tr ++ "\n"))
        | none => some errstr
  | n + 1, .flow p =>
    match h.deref p with
    | none => none
    | some fl =>
      match collect (textChild indent (GoError.GetText indent h n) (GoError.Error h n))
          fl.children with
      | none => none
      | some childStrings =>
        if childStrings.length = 0 then
          some ("Flow " ++ fl.Name ++ ": (nothing to report)\n")
        else
          some ("Flow " ++ fl.Name ++ ":\n" ++ "".intercalate childStrings)

/-- Method `GetText` of `*Flow`. -/
def Flow.GetText (indent : String → String) (h : Heap) (fuel : Nat) (self : FlowRef) :
    Option String :=
  GoError.GetText indent h fuel (.flow self)

/-- Method `GetText` of LabelledError. -/
def LabelledError.GetText (indent : String → String) (h : Heap) (fuel : Nat)
    (erro : LabelledError) : Option String :=
  GoError.GetText indent h fuel erro.toError

/-- Method `Abort`: the returned error and what was written to stderr, if
anything; `none` when the call to `erro.GetText()` does not return within the
depth `fuel`. -/
def Flow.Abort (indent : String → String) (h : Heap) (fuel : Nat) (self : FlowRef) (fl : Flow)
    (label : String) : Option (GoError × Option String) :=
  let erro : LabelledError := { Err := .flow self, Label := label, Flow := fl.Name, Trace := none }
  if fl.options.PrintStderrOnAbort then
    match erro.GetText indent h fuel with
    | none => none
    | some t => some (erro.toError, some t)
  else some (erro.toError, none)

set_option linter.dupNamespace false in
/-- Method `Flow` of `*Flow`: allocates the new flow, calls `newFlow.addFlow(fl)` on it and
returns it; `self` is the receiver pointer `fl` and `fl` its record. -/
def Flow.Flow (h : Heap) (self : FlowRef) (fl : Gopheramework.Flow) (name : String) :
    Heap × FlowRef :=
  let (h1, newFlow) := fl.options.new h name
  match h1.deref newFlow with
  | none => (h1, newFlow)
  | some nf => (h1.store newFlow (nf.addFlow self), newFlow)

/-! ## Sequences of calls -/

/-- A call of a public method, with its arguments (and what the environment
supplies at the call: the captured stack, the formatted time). -/
inductive Op where
  | Add (err : Option GoError)
  | Check (err : Option GoError) (label : String) (stack : String)
  | Must (check : Bool) (message : String) (stack : String)
  | Log (note : String)
  | LogWithTime (note : String) (now : String)
  | Abort (label : String)
  | Done (label : String)
  | Error
  | GetText
  | Flow (name : String)
deriving DecidableEq

/-- The heap after the call `op` on the flow at `self` has returned.  The
terminal and rendering methods assign to no field; a call through a pointer to
nothing returns nothing and leaves the heap as it is. -/
def invoke (h : Heap) (self : FlowRef) (op : Op) : Heap :=
  match h.deref self with
  | none => h
  | some fl =>
    match op with
    | .Add err => h.store self (fl.Add err).1
    | .Check err label stack => h.store self (fl.Check err label stack).1
    | .Must check message stack => h.store self (fl.Must check message stack).1
    | .Log note => h.store self (fl.Log note)
    | .LogWithTime note now => h.store self (fl.LogWithTime note now)
    | .Flow name => (Flow.Flow h self fl name).1
    | .Abort _ => h
    | .Done _ => h
    | .Error => h
    | .GetText => h

/-- A sequence of calls, each on the flow it names. -/
def run (h : Heap) : List (FlowRef × Op) → Heap
  | [] => h
  | (p, op) :: rest => run (invoke h p op) rest

/-- What a call does to the record of its receiver. -/
def Op.effect (op : Op) (fl : Gopheramework.Flow) : Gopheramework.Flow :=
  match op with
  | .Add err => (fl.Add err).1
  | .Check err label stack => (fl.Check err label stack).1
  | .Must check message stack => (fl.Must check message stack).1
  | .Log note => fl.Log note
  | .LogWithTime note now => fl.LogWithTime note now
  | .Abort _ => fl
  | .Done _ => fl
  | .Error => fl
  | .GetText => fl
  | .Flow _ => fl

/-- The calls that record no error: `Log`, `LogWithTime`, `Flow(name)`,
`Add(nil)`, `Check(nil, _)` and `Must(true, _)`. -/
def Op.recordsNoError : Op → Bool
  | .Log _ => true
  | .LogWithTime _ _ => true
  | .Flow _ => true
  | .Add none => true
  | .Check none _ _ => true
  | .Must true _ _ => true
  | _ => false

/-- The calls that pass a non-nil error through `Add` or `Check`. -/
def Op.passesError : Op → Bool
  | .Add (some _) => true
  | .Check (some _) _ _ => true
  | _ => false

/-- The text `part` occurs in `text`. -/
def Contains (text part : String) : Prop := part.data <:+: text.data

instance (text part : String) : Decidable (Contains text part) := by
  unfold Contains; infer_instance

/-! ## Pointers between flows -/

/-- The flow that an error value points to, through any number of
LabelledError wrappers; `none` for an error from outside the package. -/
def GoError.target : GoError → Option FlowRef
  | .ext _ _ => none
  | .labelled err _ _ _ => err.target
  | .flow p => some p

/-- The flow that a child points to. -/
def Child.target : Child → Option FlowRef
  | .error e => e.target
  | .note _ => none

/-- The flows that the rendering of a flow calls into: those its `errors` and
its `children` point to. -/
def Flow.targets (fl : Gopheramework.Flow) : List FlowRef :=
  fl.errors.filterMap GoError.target ++ fl.children.filterMap Child.target

/-- The flows listed in `S` are allocated, point only to flows of `S`, and `rank`
decreases along every such pointer: no flow of `S` reaches itself. -/
def Heap.acyclicOn (h : Heap) (rank : FlowRef → Nat) (S : List FlowRef) : Bool :=
  S.all fun p =>
    match h.deref p with
    | none => false
    | some fl => fl.targets.all fun q => decide (q ∈ S) && decide (rank q < rank p)

/-- The heaps that a program can build with the package: it starts with no flow,
creates flows with `FlowOptions.New` and calls the public methods. -/
inductive Reachable : Heap → Prop where
  | empty : Reachable []
  | new (h : Heap) (options : FlowOptions) (name : String) :
      Reachable h → Reachable (options.New h name).1
  | call (h : Heap) (self : FlowRef) (op : Op) : Reachable h → Reachable (invoke h self op)

/-! ## The states of the package's test -/

/-- The options of `NewDefault`. -/
def defaultOptions : FlowOptions := { FlowCheckWriteStack := true, PrintStderrOnAbort := false }

/-- The record of the flow "login check" of `flow_test.go` after its first call,
`f1.LogWithTime("login from 192.169.111.222")`. -/
def loginRecord : Flow :=
  (defaultOptions.newRecord "login check").LogWithTime "login from 192.169.111.222"
    "2018-01-01T00:00:00Z"

/-- The heap of `fakeLoginCheck` before it branches: "login check" at address `0`. -/
def loginHeap : Heap := [loginRecord]

/-- The error `errors.New("database: generic database error")` of `flow_test.go`. -/
def databaseError : GoError := .ext "database: generic database error" none

/-- The heap after `p := NewDefault("login check"); p.Add(p)`: the flow, which is
an `error` itself, recorded in its own lists. -/
def selfHeap : Heap :=
  invoke (NewDefault [] "login check").1 0 (.Add (some (.flow 0)))

/-- Options that make `Abort` write to stderr. -/
def echoOptions : FlowOptions := { FlowCheckWriteStack := false, PrintStderrOnAbort := true }

/-- The heap after `p := echoOptions.New("login check"); p.Add(p)`. -/
def echoSelfHeap : Heap :=
  invoke (echoOptions.New [] "login check").1 0 (.Add (some (.flow 0)))

/-- The compact rendering of one child in the words of the specification: an
error child, raw or labelled, and a nested flow (an error child as well) render
as their own `Error()` text, a note renders as `note(<text>)`. -/
def rendersCompact (h : Heap) (n : Nat) : Child → String → Prop
  | .error e, s => GoError.Error h n e = some s
  | .note text, s => s = "note(" ++ text ++ ")"

/-- The heap after `p := NewDefault("login check"); p.Log("started");
p.Add(err); c := p.Flow("database error")`. -/
def compactHeap : Heap :=
  invoke (invoke (invoke (NewDefault [] "login check").1 0 (.Log "started")) 0
    (.Add (some databaseError))) 0 (.Flow "database error")

/-- The heap of the path `systemErr` of `fakeLoginCheck` when `Abort` is reached,
for flows that write to stderr: "login check" at `0`, "database error" at `1`. -/
def abortHeap : Heap :=
  run (echoOptions.New [] "login check").1
    [(0, .Flow "database error"), (1, .Log "flow diverted from login check"),
     (1, .Check (some databaseError) "get user record" "stack"),
     (1, .Log "critical: maybe logs can trigger certain handlers")]

/-- The record of "database error" in `abortHeap`. -/
def abortRecord : Flow :=
  { Name := "database error", options := echoOptions,
    children := [.error (.flow 0), .note "flow diverted from login check",
      .error (.labelled databaseError "get user record" "database error" none),
      .note "critical: maybe logs can trigger certain handlers"],
    errors := [.labelled databaseError "get user record" "database error" none],
    flows := [0],
    logs := ["flow diverted from login check",
      "critical: maybe logs can trigger certain handlers"] }

/-- The bullets of a flow one after the other: `strings.Join(childStrings, "")`
in the words of the specification. -/
def concatAll : List String → String
  | [] => ""
  | b :: bs => b ++ concatAll bs

/-- The bullet of one child in the human-readable form, in the words of the
specification: a child that supports human-readable rendering (a nested flow, a
labelled error) contributes `"\t- "` and its own `GetText()` indented, a plain
error `"\t- error: "`, its indented `Error()` text and a newline, a note
`"\t- log: "`, its text and a newline. -/
def rendersText (indent : String → String) (h : Heap) (n : Nat) : Child → String → Prop
  | .error e, s =>
    (e.hasGetText = true ∧ ∃ t, GoError.GetText indent h n e = some t ∧ s = "\t- " ++ indent t) ∨
    (e.hasGetText = false ∧
      ∃ m, GoError.Error h n e = some m ∧ s = "\t- error: " ++ indent m ++ "\n")
  | .note text, s => s = "\t- log: " ++ text ++ "\n"

/-- The list `children` is made of the elements of `errors` (each stored as an
error), the elements of `flows` (each stored as the pointer) and the elements
of `logs` (each stored as a note), every child being exactly one of them and
each of the three lists keeping its order. -/
inductive Interleaved : List Child → List GoError → List FlowRef → List String → Prop where
  | nil : Interleaved [] [] [] []
  | error (e : GoError) {cs : List Child} {es : List GoError} {fs : List FlowRef}
      {ls : List String} :
      Interleaved cs es fs ls → Interleaved (.error e :: cs) (e :: es) fs ls
  | flow (q : FlowRef) {cs : List Child} {es : List GoError} {fs : List FlowRef}
      {ls : List String} :
      Interleaved cs es fs ls → Interleaved (.error (.flow q) :: cs) es (q :: fs) ls
  | note (s : String) {cs : List Child} {es : List GoError} {fs : List FlowRef}
      {ls : List String} :
      Interleaved cs es fs ls → Interleaved (.note s :: cs) es fs (s :: ls)

/-- The heap after `p := NewDefault("login check"); c := p.Flow("database error");
c.Add(err)`: the child, at `1`, has recorded an error. -/
def childErrorHeap : Heap :=
  run (NewDefault [] "login check").1
    [(0, .Flow "database error"), (1, .Add (some databaseError))]

/-- The record of the child "database error" in `childErrorHeap`. -/
def childErrorRecord : Flow :=
  { Name := "database error", options := defaultOptions,
    children := [.error (.flow 0), .error databaseError], errors := [databaseError],
    flows := [0], logs := [] }

/-- The heap after the child's result is folded back with `p.Add(c.Done("bad login"))`. -/
def foldAddDoneHeap : Heap :=
  invoke childErrorHeap 0 (.Add (Flow.Done 1 childErrorRecord "bad login"))

/-- The heap after the child's result is folded back with
`p.Check(c.Done("bad login"), "login")`. -/
def foldCheckDoneHeap : Heap :=
  invoke childErrorHeap 0 (.Check (Flow.Done 1 childErrorRecord "bad login") "login" "stack")

/-- The heap after the child's result is folded back with `p.Add(c.Abort("system"))`. -/
def foldAddAbortHeap : Heap :=
  invoke childErrorHeap 0
    (.Add ((Flow.Abort id childErrorHeap 0 1 childErrorRecord "system").map Prod.fst))

/-! ## rwstrings.Indent -/

/-- The contract of `rwstrings.Indent` (which is not part of the repository) that
the indentation of nested text relies on: a non-empty line of the text, that is
text without a newline that stands behind a newline, is in the result behind
that newline and one more tab.  Nothing is asked about a newline with nothing
behind it on its line, such as the one that ends the text. -/
def IndentsLines (indent : String → String) : Prop :=
  ∀ s line : String, line ≠ "" → '\n' ∉ line.data → Contains s ("\n" ++ line) →
    Contains (indent s) ("\n\t" ++ line)

/-- The contract of `rwstrings.Indent` for the first line of a text: it stays as
it is. -/
def KeepsFirstLine (indent : String → String) : Prop :=
  ∀ a b : String, '\n' ∉ a.data → ∃ r, indent (a ++ "\n" ++ b) = a ++ "\n" ++ r

/-- One function with the contract of `rwstrings.Indent`, for the examples: a tab
after every newline. -/
def tabIndent (s : String) : String :=
  ⟨s.data.flatMap (fun ch => if ch = '\n' then ['\n', '\t'] else [ch])⟩

/-- The characters of `lineIndent`. -/
def lineIndentChars : List Char → List Char
  | [] => []
  | ch :: rest =>
    if ch = '\n' ∧ rest ≠ [] then '\n' :: '\t' :: lineIndentChars rest
    else ch :: lineIndentChars rest

/-- Another function with the contract of `rwstrings.Indent`, for the examples: a
tab after every newline but one that ends the text. -/
def lineIndent (s : String) : String := ⟨lineIndentChars s.data⟩

/-- A child whose bullet in the human-readable form is a line of its own: a note
or an error without `GetText`. -/
def Child.plain : Child → Bool
  | .note _ => true
  | .error e => !e.hasGetText

/-- The heap after `c := NewDefault("login check"); c.Log("started");
g := c.Flow("database error")`: the flow "database error", at `1`, holds the flow
"login check", at `0`, which holds a note. -/
def nestedHeap : Heap :=
  run (NewDefault [] "login check").1 [(0, .Log "started"), (0, .Flow "database error")]

/-- The heap `nestedHeap` after `g.Add(g)`. -/
def selfNestedHeap : Heap := invoke nestedHeap 1 (.Add (some (.flow 1)))

/-- The heap after `d := NewDefault("root"); c := d.Flow("login check");
c.Log("started"); g := c.Flow("database error")`: in "login check", at `1`, the
note comes after the bullet of the nested flow "root". -/
def deepHeap : Heap :=
  run (NewDefault [] "root").1
    [(0, .Flow "login check"), (1, .Log "started"), (1, .Flow "database error")]

/-- The record of a flow "lookup" after `q.Add(err)` with the database error. -/
def lookupRecord : Flow :=
  { Name := "lookup", options := defaultOptions, children := [.error databaseError],
    errors := [databaseError], flows := [], logs := [] }

/-- The error `q.Done("find")` of the flow "lookup" at address `1`: a LabelledError
that wraps the flow, so an error that has `GetText`. -/
def lookupError : GoError := .labelled (.flow 1) "find" "lookup" none

/-- The heap after `p := NewDefault("login check"); q := NewDefault("lookup");
q.Add(err); c := p.Flow("database error"); c.Log("flow diverted");
c.Check(q.Done("find"), "get user record")`: the child is at `2`. -/
def lookupHeap : Heap :=
  run (NewDefault (NewDefault [] "login check").1 "lookup").1
    [(1, .Add (some databaseError)), (0, .Flow "database error"),
     (2, .Log "flow diverted"),
     (2, .Check (Flow.Done 1 lookupRecord "find") "get user record" "stack")]

/-- The heap after `p := NewDefault("login check"); p.Add(p);
c := p.Flow("database error"); c.Log("flow diverted");
c.Check(err, "get user record")`: the parent holds itself. -/
def selfParentHeap : Heap :=
  run selfHeap
    [(0, .Flow "database error"), (1, .Log "flow diverted"),
     (1, .Check (some databaseError) "get user record" "stack")]

/-! ## The items a call records -/

/-- The error that is stored in a child, when the child is an error. -/
def Child.asError : Child → Option GoError
  | .error e => some e
  | .note _ => none

/-- The text of a child, when the child is a note. -/
def Child.asNote : Child → Option String
  | .note s => some s
  | .error _ => none

/-- The error item that a call records in its receiver, in the words of the
specification: the raw error for `Add`, one LabelledError (label, name of the
flow, trace when the option is set) for `Check` and for a failed `Must`, and
nothing for the other calls. -/
def Op.recordedError (fl : Gopheramework.Flow) : Op → Option GoError
  | .Add err => err
  | .Check (some e) label stack =>
    some (.labelled e label fl.Name (if fl.options.FlowCheckWriteStack then some stack else none))
  | .Must false message stack =>
    some (.labelled mustFail message fl.Name
      (if fl.options.FlowCheckWriteStack then some stack else none))
  | _ => none

/-- The note that a call records in its receiver: the text for `Log`, the text
with the time for `LogWithTime`, nothing for the other calls. -/
def Op.recordedNote : Op → Option String
  | .Log note => some note
  | .LogWithTime note now => some (note ++ " @" ++ now)
  | _ => none

/-- The heap after `p := NewDefault("login check"); c := p.Flow("database error");
c.Add(p)`: the flow `c`, at `1`, was spawned from `p` and `p`, which is an
`error`, was then passed to `c.Add`. -/
def parentAddedHeap : Heap :=
  invoke (invoke (NewDefault [] "login check").1 0 (.Flow "database error")) 1
    (.Add (some (.flow 0)))

/-! ## The heap -/

theorem deref_lt {h : Heap} {p : FlowRef} {fl : Flow} (hp : h.deref p = some fl) :
    p < h.length := by
  obtain ⟨hlt, -⟩ := List.getElem?_eq_some.mp hp
  exact hlt

theorem deref_store_same {h : Heap} {p : FlowRef} {fl : Flow} (fl1 : Flow)
    (hp : h.deref p = some fl) : (h.store p fl1).deref p = some fl1 := by
  have hlt := deref_lt hp
  simp [Heap.deref, Heap.store, hlt]

theorem deref_store_other (h : Heap) {p q : FlowRef} (fl1 : Flow) (hne : p ≠ q) :
    (h.store p fl1).deref q = h.deref q := by
  simp [Heap.deref, Heap.store, hne]

theorem deref_alloc_old {h : Heap} {p : FlowRef} {fl : Flow} (x : Flow)
    (hp : h.deref p = some fl) : (h.alloc x).1.deref p = some fl := by
  have hlt := deref_lt hp
  simp only [Heap.deref, Heap.alloc] at hp ⊢
  rw [List.getElem?_append_left hlt]; exact hp

theorem deref_alloc_new (h : Heap) (x : Flow) :
    (h.alloc x).1.deref (h.alloc x).2 = some x := by
  simp [Heap.deref, Heap.alloc]

theorem store_same {h : Heap} {p : FlowRef} {fl : Flow} (hp : h.deref p = some fl) :
    h.store p fl = h := by
  apply List.ext_getElem?
  intro i
  simp only [Heap.deref, Heap.store] at hp ⊢
  rw [List.getElem?_set]
  split
  · next heq => subst heq; rw [hp]; simp [deref_lt hp]
  · rfl

/-! ## What the calls do to the heap -/

/-- The heap and the pointer that `Flow(name)` returns: the new record, holding
the receiver, is allocated at the end of the heap. -/
theorem Flow_eq (h : Heap) (self : FlowRef) (fl : Flow) (name : String) :
    Flow.Flow h self fl name
      = (h ++ [(fl.options.newRecord name).addFlow self], h.length) := by
  simp [Flow.Flow, FlowOptions.new, Heap.alloc, Heap.deref, Heap.store]

theorem Flow_deref_old {h : Heap} {q : FlowRef} {qfl : Flow} (self : FlowRef) (fl : Flow)
    (name : String) (hq : h.deref q = some qfl) :
    (Flow.Flow h self fl name).1.deref q = some qfl := by
  rw [Flow_eq]
  exact deref_alloc_old _ hq

theorem Flow_deref_new (h : Heap) (self : FlowRef) (fl : Flow) (name : String) :
    (Flow.Flow h self fl name).1.deref (Flow.Flow h self fl name).2
      = some ((fl.options.newRecord name).addFlow self) := by
  rw [Flow_eq]
  exact deref_alloc_new h _

/-- A call changes the receiver's record by `Op.effect`. -/
theorem invoke_self {h : Heap} {self : FlowRef} {fl : Flow} (op : Op)
    (hp : h.deref self = some fl) : (invoke h self op).deref self = some (op.effect fl) := by
  cases op <;> simp only [invoke, hp, Op.effect] <;>
    first
    | exact deref_store_same _ hp
    | exact hp
    | exact Flow_deref_old _ _ _ hp

/-- A call leaves the records of the flows other than its receiver as they are. -/
theorem invoke_other {h : Heap} {q : FlowRef} {qfl : Flow} (self : FlowRef) (op : Op)
    (hne : self ≠ q) (hq : h.deref q = some qfl) : (invoke h self op).deref q = some qfl := by
  unfold invoke
  cases hs : h.deref self with
  | none => exact hq
  | some fl =>
    cases op <;> simp only <;>
      first
      | (rw [deref_store_other _ _ hne]; exact hq)
      | exact hq
      | exact Flow_deref_old _ _ _ hq

/-- No call renames its receiver or changes its options. -/
theorem effect_name (op : Op) (fl : Flow) :
    (op.effect fl).Name = fl.Name ∧ (op.effect fl).options = fl.options := by
  cases op with
  | Add err => cases err <;> exact ⟨rfl, rfl⟩
  | Check err label stack => cases err <;> exact ⟨rfl, rfl⟩
  | Must check message stack => cases check <;> exact ⟨rfl, rfl⟩
  | _ => exact ⟨rfl, rfl⟩

/-- Every call only appends to `errors`. -/
theorem effect_errors (op : Op) (fl : Flow) :
    ∃ t, (op.effect fl).errors = fl.errors ++ t := by
  cases op with
  | Add err => cases err <;> [exact ⟨[], by simp [Op.effect, Flow.Add, Flow.addError]⟩;
      exact ⟨_, rfl⟩]
  | Check err label stack => cases err <;>
      [exact ⟨[], by simp [Op.effect, Flow.Check]⟩; exact ⟨_, rfl⟩]
  | Must check message stack => cases check <;>
      [exact ⟨_, rfl⟩; exact ⟨[], by simp [Op.effect, Flow.Must]⟩]
  | _ => exact ⟨[], by simp [Op.effect, Flow.Log, Flow.LogWithTime, Flow.addLog, Flow.add]⟩

/-- Every call only appends to `children`. -/
theorem effect_children (op : Op) (fl : Flow) :
    ∃ t, (op.effect fl).children = fl.children ++ t := by
  cases op with
  | Add err => cases err <;> [exact ⟨[], by simp [Op.effect, Flow.Add, Flow.addError]⟩;
      exact ⟨_, rfl⟩]
  | Check err label stack => cases err <;>
      [exact ⟨[], by simp [Op.effect, Flow.Check]⟩; exact ⟨_, rfl⟩]
  | Must check message stack => cases check <;>
      [exact ⟨_, rfl⟩; exact ⟨[], by simp [Op.effect, Flow.Must]⟩]
  | Log note => exact ⟨_, rfl⟩
  | LogWithTime note now => exact ⟨_, rfl⟩
  | _ => exact ⟨[], by simp [Op.effect]⟩

/-- A call that records no error leaves `errors` as it is. -/
theorem effect_recordsNoError (op : Op) (fl : Flow) (hop : op.recordsNoError = true) :
    (op.effect fl).errors = fl.errors := by
  cases op with
  | Add err => cases err <;> [rfl; simp [Op.recordsNoError] at hop]
  | Check err label stack => cases err <;> [rfl; simp [Op.recordsNoError] at hop]
  | Must check message stack => cases check <;> [simp [Op.recordsNoError] at hop; rfl]
  | Log note => rfl
  | LogWithTime note now => rfl
  | Flow name => rfl
  | _ => simp [Op.recordsNoError] at hop

/-- A call that passes a non-nil error through `Add` or `Check` leaves `errors`
non-empty. -/
theorem effect_passesError (op : Op) (fl : Flow) (hop : op.passesError = true) :
    (op.effect fl).errors ≠ [] := by
  cases op with
  | Add err => cases err <;> [simp [Op.passesError] at hop;
      simp [Op.effect, Flow.Add, Flow.addError, Flow.add]]
  | Check err label stack => cases err <;> [simp [Op.passesError] at hop;
      simp [Op.effect, Flow.Check, Flow.addError, Flow.add]]
  | _ => simp [Op.passesError] at hop

/-- One call, on any flow: an allocated flow stays allocated, keeps its name and
options, and its lists only grow at the end. -/
theorem invoke_deref {h : Heap} {q : FlowRef} {fl : Flow} (self : FlowRef) (op : Op)
    (hq : h.deref q = some fl) :
    ∃ fl1, (invoke h self op).deref q = some fl1 ∧ fl1.Name = fl.Name ∧
      fl1.options = fl.options ∧ (∃ t, fl1.errors = fl.errors ++ t) ∧
      (∃ t, fl1.children = fl.children ++ t) := by
  by_cases hne : self = q
  · subst hne
    exact ⟨op.effect fl, invoke_self op hq, (effect_name op fl).1, (effect_name op fl).2,
      effect_errors op fl, effect_children op fl⟩
  · exact ⟨fl, invoke_other self op hne hq, rfl, rfl, ⟨[], by simp⟩, ⟨[], by simp⟩⟩

/-- A sequence of calls, on any flows: an allocated flow stays allocated, keeps
its name and options, and its lists only grow at the end. -/
theorem run_deref {h : Heap} {q : FlowRef} {fl : Flow} (calls : List (FlowRef × Op))
    (hq : h.deref q = some fl) :
    ∃ fl1, (run h calls).deref q = some fl1 ∧ fl1.Name = fl.Name ∧
      fl1.options = fl.options ∧ (∃ t, fl1.errors = fl.errors ++ t) ∧
      (∃ t, fl1.children = fl.children ++ t) := by
  induction calls generalizing h fl with
  | nil => exact ⟨fl, hq, rfl, rfl, ⟨[], by simp⟩, ⟨[], by simp⟩⟩
  | cons c rest ih =>
    obtain ⟨self, op⟩ := c
    obtain ⟨fl1, h1, hn1, ho1, ⟨t1, he1⟩, ⟨u1, hc1⟩⟩ := invoke_deref self op hq
    obtain ⟨fl2, h2, hn2, ho2, ⟨t2, he2⟩, ⟨u2, hc2⟩⟩ := ih h1
    refine ⟨fl2, h2, hn2.trans hn1, ho2.trans ho1, ⟨t1 ++ t2, ?_⟩, ⟨u1 ++ u2, ?_⟩⟩
    · rw [he2, he1, List.append_assoc]
    · rw [hc2, hc1, List.append_assoc]

/-- A sequence of calls none of which is on the flow `q` leaves its record as it is. -/
theorem run_untouched {h : Heap} {q : FlowRef} {fl : Flow} (calls : List (FlowRef × Op))
    (hcalls : ∀ c ∈ calls, c.1 ≠ q) (hq : h.deref q = some fl) :
    (run h calls).deref q = some fl := by
  induction calls generalizing h with
  | nil => exact hq
  | cons c rest ih =>
    obtain ⟨self, op⟩ := c
    have hne : self ≠ q := hcalls (self, op) (List.mem_cons_self _ _)
    exact ih (fun c hc => hcalls c (List.mem_cons_of_mem _ hc)) (invoke_other self op hne hq)

/-- A sequence of calls whose calls on the flow `q` record no error leaves the
`errors` of `q` as they are. -/
theorem run_recordsNoError {h : Heap} {q : FlowRef} {fl : Flow} (calls : List (FlowRef × Op))
    (hcalls : ∀ c ∈ calls, c.1 = q → c.2.recordsNoError = true) (hq : h.deref q = some fl) :
    ∃ fl1, (run h calls).deref q = some fl1 ∧ fl1.errors = fl.errors := by
  induction calls generalizing h fl with
  | nil => exact ⟨fl, hq, rfl⟩
  | cons c rest ih =>
    obtain ⟨self, op⟩ := c
    have hrest : ∀ c ∈ rest, c.1 = q → c.2.recordsNoError = true :=
      fun c hc => hcalls c (List.mem_cons_of_mem _ hc)
    by_cases hne : self = q
    · subst hne
      have hop : op.recordsNoError = true := hcalls (self, op) (List.mem_cons_self _ _) rfl
      obtain ⟨fl2, h2, he2⟩ := ih hrest (invoke_self op hq)
      exact ⟨fl2, h2, he2.trans (effect_recordsNoError op fl hop)⟩
    · exact ih hrest (invoke_other self op hne hq)

/-- Done returns nil exactly when `errors` is empty. -/
theorem Done_eq_none_iff (self : FlowRef) (fl : Flow) (label : String) :
    Flow.Done self fl label = none ↔ fl.errors = [] := by
  cases he : fl.errors with
  | nil => simp [Flow.Done, Flow.getError, he]
  | cons e es => simp [Flow.Done, Flow.getError, he]

/-- Done on a flow with a recorded error returns the flow wrapped in a
LabelledError. -/
theorem Done_of_errors (self : FlowRef) (fl : Flow) (label : String) (he : fl.errors ≠ []) :
    Flow.Done self fl label = some (.labelled (.flow self) label fl.Name none) := by
  cases hes : fl.errors with
  | nil => exact absurd hes he
  | cons e es => simp [Flow.Done, Flow.getError, hes, LabelledError.toError]

/-! ## Done, Add, Check, Must and Flow -/

/-- C1: a flow that was just created, by `New` or by `Flow(name)` on any parent,
and on which only calls that record no error are made (`Log`, `LogWithTime`,
`Flow(name)`, `Add(nil)`, `Check(nil, _)`, `Must(true, _)`; calls on other flows
are unrestricted) is still allocated and `Done(label)` returns nil on it for
every label. -/
theorem done_nil_of_no_error_recorded (h h1 : Heap) (self : FlowRef)
    (hnew : (∃ options name, (h1, self) = FlowOptions.New options h name) ∨
      (∃ parent pfl name, h.deref parent = some pfl ∧
        (h1, self) = Flow.Flow h parent pfl name))
    (calls : List (FlowRef × Op))
    (hcalls : ∀ c ∈ calls, c.1 = self → c.2.recordsNoError = true) :
    ∃ fl, (run h1 calls).deref self = some fl ∧ ∀ label, Flow.Done self fl label = none := by
  have hstart : ∃ fl0, h1.deref self = some fl0 ∧ fl0.errors = [] := by
    rcases hnew with ⟨options, name, heq⟩ | ⟨parent, pfl, name, -, heq⟩
    · have h1eq : h1 = (FlowOptions.New options h name).1 := congrArg Prod.fst heq
      have h2eq : self = (FlowOptions.New options h name).2 := congrArg Prod.snd heq
      rw [h1eq, h2eq]
      exact ⟨_, deref_alloc_new h _, rfl⟩
    · have h1eq : h1 = (Flow.Flow h parent pfl name).1 := congrArg Prod.fst heq
      have h2eq : self = (Flow.Flow h parent pfl name).2 := congrArg Prod.snd heq
      rw [h1eq, h2eq]
      exact ⟨_, Flow_deref_new h parent pfl name, rfl⟩
  obtain ⟨fl0, h0, he0⟩ := hstart
  obtain ⟨fl, hfl, he⟩ := run_recordsNoError calls hcalls h0
  exact ⟨fl, hfl, fun label => (Done_eq_none_iff self fl label).mpr (he.trans he0)⟩

/-- The path `inputErr` of `fakeLoginCheck`, with an error recorded in the parent
only: `Done` on the spawned flow returns nil. -/
theorem done_nil_of_no_error_recorded_witness :
    ∃ fl, (run (Flow.Flow loginHeap 0 loginRecord "bad input").1
        [(1, .Log "diverted"), (1, .Check none "get user record" "stack"),
         (1, .Must true "has input" "stack"), (0, .Add (some databaseError)),
         (1, .Flow "deeper")]).deref 1 = some fl ∧
      ∀ label, Flow.Done 1 fl label = none :=
  done_nil_of_no_error_recorded loginHeap _ 1
    (Or.inr ⟨0, loginRecord, "bad input", rfl, rfl⟩) _ (by decide)

/-- C3: after `parent.Flow(name)`, any sequence of calls on flows other than the
parent (the child among them, recording errors or not) leaves the parent's
record as it was, so `parent.Done(label)` is nil after them exactly when it was
nil before, and it is nil when the parent has no error of its own. -/
theorem child_calls_keep_parent_status (h : Heap) (parent : FlowRef) (pfl : Flow)
    (name : String) (hp : h.deref parent = some pfl) (calls : List (FlowRef × Op))
    (hcalls : ∀ c ∈ calls, c.1 ≠ parent) :
    (Flow.Flow h parent pfl name).2 ≠ parent ∧
    ∃ pfl1, (run (Flow.Flow h parent pfl name).1 calls).deref parent = some pfl1 ∧
      pfl1 = pfl ∧
      ∀ label, (Flow.Done parent pfl1 label = none ↔ Flow.Done parent pfl label = none) ∧
        (pfl.errors = [] → Flow.Done parent pfl1 label = none) := by
  refine ⟨?_, pfl, run_untouched calls hcalls (Flow_deref_old parent pfl name hp), rfl,
    fun label => ⟨Iff.rfl, fun he => (Done_eq_none_iff parent pfl label).mpr he⟩⟩
  rw [Flow_eq]
  exact Nat.ne_of_gt (deref_lt hp)

/-- The path `systemErr` of `fakeLoginCheck`: the errors recorded in the child
"database error" leave `Done` on "login check" nil. -/
theorem child_calls_keep_parent_status_witness :
    (Flow.Flow loginHeap 0 loginRecord "database error").2 ≠ 0 ∧
    ∃ pfl1, (run (Flow.Flow loginHeap 0 loginRecord "database error").1
        [(1, .Log "flow diverted from login check"),
         (1, .Check (some databaseError) "get user record" "stack"),
         (1, .Must false "unreachable" "stack"),
         (1, .Add (some databaseError))]).deref 0 = some pfl1 ∧
      pfl1 = loginRecord ∧
      ∀ label, (Flow.Done 0 pfl1 label = none ↔ Flow.Done 0 loginRecord label = none) ∧
        (loginRecord.errors = [] → Flow.Done 0 pfl1 label = none) :=
  child_calls_keep_parent_status loginHeap 0 loginRecord "database error" rfl _ (by decide)

/-- C4: `f1.Flow("bad input")` on the flow "login check" leaves the lists
`flows` and `children` of "login check" as they were (the new flow is in neither)
and puts "login check" into the lists `flows` and `children` of the new flow. -/
theorem Flow_appends_receiver_to_new_flow :
    (Flow.Flow loginHeap 0 loginRecord "bad input").2 = 1 ∧
    (Flow.Flow loginHeap 0 loginRecord "bad input").1.deref 0 = some loginRecord ∧
    loginRecord.flows = [] ∧
    loginRecord.children = [.note "login from 192.169.111.222 @2018-01-01T00:00:00Z"] ∧
    (Flow.Flow loginHeap 0 loginRecord "bad input").1.deref 1 =
      some { Name := "bad input", options := defaultOptions,
             children := [.error (.flow 0)], errors := [], flows := [0], logs := [] } := by
  decide

/-- C5: `Add(err)` returns true exactly when `err` is non-nil.  With a nil
`err` the heap, hence the record of the flow, is unchanged and so is what `Done`
returns; with a non-nil `err` that same error value is appended at the end of
`errors` and of `children`, no other field of the flow and no other flow
changes. -/
theorem Add_spec (h : Heap) (self : FlowRef) (fl : Flow) (hp : h.deref self = some fl)
    (err : Option GoError) :
    ((fl.Add err).2 = true ↔ err ≠ none) ∧
    (err = none → invoke h self (.Add err) = h ∧ (fl.Add err).1 = fl ∧
      ∀ label, Flow.Done self (fl.Add err).1 label = Flow.Done self fl label) ∧
    (∀ e, err = some e →
      (fl.Add err).1 = { fl with errors := fl.errors ++ [e],
                                 children := fl.children ++ [.error e] } ∧
      (invoke h self (.Add err)).deref self = some (fl.Add err).1 ∧
      ∀ q, q ≠ self → (invoke h self (.Add err)).deref q = h.deref q) := by
  refine ⟨?_, ?_, ?_⟩
  · cases err <;> simp [Flow.Add, Flow.addError]
  · intro hnil
    subst hnil
    refine ⟨?_, rfl, fun _ => rfl⟩
    simp only [invoke, hp, Flow.Add, Flow.addError]
    exact store_same hp
  · intro e he
    subst he
    refine ⟨rfl, invoke_self (.Add (some e)) hp, fun q hq => ?_⟩
    simp only [invoke, hp]
    exact deref_store_other h _ (Ne.symm hq)

/-- Add on the flow "login check": the database error is appended as it is. -/
theorem Add_spec_witness :
    ((loginRecord.Add (some databaseError)).2 = true ↔ some databaseError ≠ none) ∧
    (some databaseError = none → invoke loginHeap 0 (.Add (some databaseError)) = loginHeap ∧
      (loginRecord.Add (some databaseError)).1 = loginRecord ∧
      ∀ label, Flow.Done 0 (loginRecord.Add (some databaseError)).1 label
        = Flow.Done 0 loginRecord label) ∧
    (∀ e, some databaseError = some e →
      (loginRecord.Add (some databaseError)).1
        = { loginRecord with errors := loginRecord.errors ++ [e],
                             children := loginRecord.children ++ [.error e] } ∧
      (invoke loginHeap 0 (.Add (some databaseError))).deref 0
        = some (loginRecord.Add (some databaseError)).1 ∧
      ∀ q, q ≠ 0 → (invoke loginHeap 0 (.Add (some databaseError))).deref q
        = loginHeap.deref q) :=
  Add_spec loginHeap 0 loginRecord rfl (some databaseError)

/-- C6: `Check(err, label)` returns true exactly when `err` is non-nil.  With a
nil `err` the heap is unchanged; with a non-nil `err` one LabelledError is
appended at the end of `errors` and of `children`, with `Err = err`,
`Label = label`, `Flow` the name of the checking flow and a trace (the captured
stack) exactly when the option FlowCheckWriteStack is set; nothing else
changes. -/
theorem Check_spec (h : Heap) (self : FlowRef) (fl : Flow) (hp : h.deref self = some fl)
    (err : Option GoError) (label stack : String) :
    ((fl.Check err label stack).2 = true ↔ err ≠ none) ∧
    (err = none → invoke h self (.Check err label stack) = h ∧
      (fl.Check err label stack).1 = fl) ∧
    (∀ e, err = some e → ∃ erro : LabelledError,
      erro.Err = e ∧ erro.Label = label ∧ erro.GetLabel = label ∧
      erro.Flow = fl.Name ∧ erro.GetFlow = fl.Name ∧
      (erro.Trace.isSome = fl.options.FlowCheckWriteStack) ∧
      (erro.Trace = if fl.options.FlowCheckWriteStack then some stack else none) ∧
      (fl.Check err label stack).1
        = { fl with errors := fl.errors ++ [erro.toError],
                    children := fl.children ++ [.error erro.toError] } ∧
      (invoke h self (.Check err label stack)).deref self
        = some (fl.Check err label stack).1 ∧
      ∀ q, q ≠ self → (invoke h self (.Check err label stack)).deref q = h.deref q) := by
  refine ⟨?_, ?_, ?_⟩
  · cases err <;> simp [Flow.Check]
  · intro hnil
    subst hnil
    refine ⟨?_, rfl⟩
    simp only [invoke, hp, Flow.Check]
    exact store_same hp
  · intro e he
    subst he
    have hheap : ∀ q, q ≠ self →
        (invoke h self (.Check (some e) label stack)).deref q = h.deref q := by
      intro q hq
      simp only [invoke, hp]
      exact deref_store_other h _ (Ne.symm hq)
    cases hopt : fl.options.FlowCheckWriteStack with
    | true =>
      exact ⟨{ Err := e, Label := label, Flow := fl.Name, Trace := some stack },
        rfl, rfl, rfl, rfl, rfl, rfl, rfl,
        by simp [Flow.Check, hopt, Flow.addError, Flow.add],
        invoke_self (.Check (some e) label stack) hp, hheap⟩
    | false =>
      exact ⟨{ Err := e, Label := label, Flow := fl.Name, Trace := none },
        rfl, rfl, rfl, rfl, rfl, rfl, rfl,
        by simp [Flow.Check, hopt, Flow.addError, Flow.add],
        invoke_self (.Check (some e) label stack) hp, hheap⟩

/-- The call `f2.Check(err, "get user record")` of `flow_test.go`, made on the
flow "login check". -/
theorem Check_spec_witness :
    ((loginRecord.Check (some databaseError) "get user record" "stack").2 = true
      ↔ some databaseError ≠ none) ∧
    (some databaseError = none →
      invoke loginHeap 0 (.Check (some databaseError) "get user record" "stack") = loginHeap ∧
      (loginRecord.Check (some databaseError) "get user record" "stack").1 = loginRecord) ∧
    (∀ e, some databaseError = some e → ∃ erro : LabelledError,
      erro.Err = e ∧ erro.Label = "get user record" ∧ erro.GetLabel = "get user record" ∧
      erro.Flow = loginRecord.Name ∧ erro.GetFlow = loginRecord.Name ∧
      (erro.Trace.isSome = loginRecord.options.FlowCheckWriteStack) ∧
      (erro.Trace = if loginRecord.options.FlowCheckWriteStack then some "stack" else none) ∧
      (loginRecord.Check (some databaseError) "get user record" "stack").1
        = { loginRecord with errors := loginRecord.errors ++ [erro.toError],
                             children := loginRecord.children ++ [.error erro.toError] } ∧
      (invoke loginHeap 0 (.Check (some databaseError) "get user record" "stack")).deref 0
        = some (loginRecord.Check (some databaseError) "get user record" "stack").1 ∧
      ∀ q, q ≠ 0 →
        (invoke loginHeap 0 (.Check (some databaseError) "get user record" "stack")).deref q
          = loginHeap.deref q) :=
  Check_spec loginHeap 0 loginRecord rfl (some databaseError) "get user record" "stack"

/-- C7: `Must(true, msg)` returns false and leaves the heap unchanged;
`Must(false, msg)` returns true and appends one LabelledError with `Label = msg`
to `errors` and `children`, and after it, whatever calls follow on whatever
flows, `Done(label)` on the flow returns a non-nil error for every label. -/
theorem Must_spec (h : Heap) (self : FlowRef) (fl : Flow) (hp : h.deref self = some fl)
    (msg stack : String) :
    ((fl.Must true msg stack).2 = false ∧ (fl.Must true msg stack).1 = fl ∧
      invoke h self (.Must true msg stack) = h) ∧
    ((fl.Must false msg stack).2 = true ∧
      (∃ erro : LabelledError, erro.Label = msg ∧ erro.Err = mustFail ∧
        (fl.Must false msg stack).1
          = { fl with errors := fl.errors ++ [erro.toError],
                      children := fl.children ++ [.error erro.toError] }) ∧
      ∀ calls : List (FlowRef × Op), ∃ fl1,
        (run (invoke h self (.Must false msg stack)) calls).deref self = some fl1 ∧
        ∀ label, Flow.Done self fl1 label ≠ none) := by
  refine ⟨⟨rfl, rfl, ?_⟩, rfl, ?_, ?_⟩
  · simp only [invoke, hp, Flow.Must]
    exact store_same hp
  · cases hopt : fl.options.FlowCheckWriteStack with
    | true =>
      exact ⟨{ Err := mustFail, Label := msg, Flow := fl.Name, Trace := some stack },
        rfl, rfl, by simp [Flow.Must, Flow.Check, hopt, Flow.addError, Flow.add]⟩
    | false =>
      exact ⟨{ Err := mustFail, Label := msg, Flow := fl.Name, Trace := none },
        rfl, rfl, by simp [Flow.Must, Flow.Check, hopt, Flow.addError, Flow.add]⟩
  · intro calls
    have h1 := invoke_self (.Must false msg stack) hp
    obtain ⟨fl1, hfl1, -, -, ⟨t, he⟩, -⟩ := run_deref calls h1
    refine ⟨fl1, hfl1, fun label hnil => ?_⟩
    have hempty := (Done_eq_none_iff self fl1 label).mp hnil
    rw [he] at hempty
    simp [Op.effect, Flow.Must, Flow.Check, Flow.addError, Flow.add] at hempty

/-- Must on the flow "login check". -/
theorem Must_spec_witness :
    ((loginRecord.Must true "has input" "stack").2 = false ∧
      (loginRecord.Must true "has input" "stack").1 = loginRecord ∧
      invoke loginHeap 0 (.Must true "has input" "stack") = loginHeap) ∧
    ((loginRecord.Must false "has input" "stack").2 = true ∧
      (∃ erro : LabelledError, erro.Label = "has input" ∧ erro.Err = mustFail ∧
        (loginRecord.Must false "has input" "stack").1
          = { loginRecord with errors := loginRecord.errors ++ [erro.toError],
                               children := loginRecord.children ++ [.error erro.toError] }) ∧
      ∀ calls : List (FlowRef × Op), ∃ fl1,
        (run (invoke loginHeap 0 (.Must false "has input" "stack")) calls).deref 0 = some fl1 ∧
        ∀ label, Flow.Done 0 fl1 label ≠ none) :=
  Must_spec loginHeap 0 loginRecord rfl "has input" "stack"



/-! ## The loops of the rendering methods -/

theorem collect_eq_some_iff {α : Type} (f : α → Option String) (l : List α) (ss : List String) :
    collect f l = some ss ↔ List.Forall₂ (fun a s => f a = some s) l ss := by
  induction l generalizing ss with
  | nil =>
    constructor
    · intro hc
      simp only [collect, Option.some.injEq] at hc
      subst hc
      exact List.Forall₂.nil
    · intro hf
      cases hf
      rfl
  | cons a as ih =>
    constructor
    · intro hc
      simp only [collect] at hc
      cases hfa : f a with
      | none => simp [hfa] at hc
      | some s =>
        cases hrest : collect f as with
        | none => simp [hfa, hrest] at hc
        | some ts =>
          simp only [hfa, hrest, Option.some.injEq] at hc
          subst hc
          exact List.Forall₂.cons hfa ((ih ts).mp hrest)
    · intro hf
      cases hf with
      | cons hfa hrest =>
        simp only [collect, hfa, (ih _).mpr hrest]

theorem collect_mono {α : Type} {f g : α → Option String} {l : List α} {ss : List String}
    (hfg : ∀ a ∈ l, ∀ s, f a = some s → g a = some s) (hc : collect f l = some ss) :
    collect g l = some ss := by
  rw [collect_eq_some_iff] at hc ⊢
  induction hc with
  | nil => exact List.Forall₂.nil
  | cons hfa _ ih =>
    exact List.Forall₂.cons (hfg _ (List.mem_cons_self _ _) _ hfa)
      (ih (fun a ha => hfg a (List.mem_cons_of_mem _ ha)))

/-- When every call of the loop returns within some depth, the loop returns
within some depth. -/
theorem collect_of_fuel {α : Type} (F : Nat → α → Option String)
    (hmono : ∀ n m a s, n ≤ m → F n a = some s → F m a = some s) (l : List α)
    (hl : ∀ a ∈ l, ∃ n s, F n a = some s) : ∃ n ss, collect (F n) l = some ss := by
  induction l with
  | nil => exact ⟨0, [], rfl⟩
  | cons a as ih =>
    obtain ⟨n1, s, hs⟩ := hl a (List.mem_cons_self _ _)
    obtain ⟨n2, ss, hss⟩ := ih (fun a ha => hl a (List.mem_cons_of_mem _ ha))
    refine ⟨max n1 n2, s :: ss, ?_⟩
    have h1 : F (max n1 n2) a = some s := hmono _ _ a s (le_max_left _ _) hs
    have h2 : collect (F (max n1 n2)) as = some ss :=
      collect_mono (fun a _ s hs => hmono _ _ a s (le_max_right _ _) hs) hss
    simp only [collect, h1, h2]

/-! ## Depth of the compact rendering -/

theorem compactChild_mono {f g : GoError → Option String}
    (hfg : ∀ e s, f e = some s → g e = some s) (c : Child) (s : String)
    (hc : compactChild f c = some s) : compactChild g c = some s := by
  cases c with
  | error e => exact hfg e s hc
  | note t => exact hc

/-- A call that returns within a depth returns the same text within a larger
one. -/
theorem Error_mono_succ (h : Heap) (n : Nat) :
    ∀ e s, GoError.Error h n e = some s → GoError.Error h (n + 1) e = some s := by
  induction n with
  | zero => intro e s hs; simp [GoError.Error] at hs
  | succ n ih =>
    intro e s hs
    cases e with
    | ext msg text => simpa [GoError.Error] using hs
    | labelled err label fname trace =>
      simp only [GoError.Error] at hs ⊢
      cases hin : GoError.Error h n err with
      | none => simp [hin] at hs
      | some t => rw [ih err t hin]; simpa [hin] using hs
    | flow p =>
      simp only [GoError.Error] at hs ⊢
      cases hd : h.deref p with
      | none => simp [hd] at hs
      | some fl =>
        simp only [hd] at hs ⊢
        cases he : collect (GoError.Error h n) fl.errors with
        | none => simp [he] at hs
        | some es =>
          cases hc : collect (compactChild (GoError.Error h n)) fl.children with
          | none => simp [he, hc] at hs
          | some cs =>
            rw [collect_mono (fun a _ s hs => ih a s hs) he,
              collect_mono (fun c _ s hs => compactChild_mono ih c s hs) hc]
            simpa [he, hc] using hs

theorem Error_mono (h : Heap) (n m : Nat) (e : GoError) (s : String) (hnm : n ≤ m)
    (hs : GoError.Error h n e = some s) : GoError.Error h m e = some s := by
  induction hnm with
  | refl => exact hs
  | step _ ih => exact Error_mono_succ h _ e s ih

/-! ## The compact rendering returns on flows that do not reach themselves -/

theorem acyclicOn_spec {h : Heap} {rank : FlowRef → Nat} {S : List FlowRef}
    (hac : h.acyclicOn rank S = true) {p : FlowRef} (hp : p ∈ S) :
    ∃ fl, h.deref p = some fl ∧ ∀ q ∈ fl.targets, q ∈ S ∧ rank q < rank p := by
  have hall := List.all_eq_true.mp hac p hp
  cases hd : h.deref p with
  | none => simp [hd] at hall
  | some fl =>
    refine ⟨fl, rfl, fun q hq => ?_⟩
    simp only [hd] at hall
    have hq2 := List.all_eq_true.mp hall q hq
    simpa using hq2

theorem target_mem_of_error {fl : Flow} {e : GoError} {q : FlowRef} (he : e ∈ fl.errors)
    (hq : e.target = some q) : q ∈ fl.targets := by
  unfold Flow.targets
  exact List.mem_append_left _ (List.mem_filterMap.mpr ⟨e, he, hq⟩)

theorem target_mem_of_child {fl : Flow} {c : Child} {q : FlowRef} (hc : c ∈ fl.children)
    (hq : c.target = some q) : q ∈ fl.targets := by
  unfold Flow.targets
  exact List.mem_append_right _ (List.mem_filterMap.mpr ⟨c, hc, hq⟩)

/-- An error value renders once the flow it points to, if any, does. -/
theorem Error_returns_of_target (h : Heap) (e : GoError)
    (ht : ∀ q, e.target = some q → ∃ n s, GoError.Error h n (.flow q) = some s) :
    ∃ n s, GoError.Error h n e = some s := by
  induction e with
  | ext msg text => exact ⟨1, msg, rfl⟩
  | labelled err label fname trace ih =>
    obtain ⟨n, s, hs⟩ := ih (fun q hq => ht q hq)
    exact ⟨n + 1, label ++ ": " ++ s, by simp [GoError.Error, hs]⟩
  | flow p => exact ht p rfl

/-- The flows of a set on which a rank decreases along every pointer render:
`Error()` returns on each of them. -/
theorem Error_returns_of_rank {h : Heap} {rank : FlowRef → Nat} {S : List FlowRef}
    (hac : h.acyclicOn rank S = true) (k : Nat) :
    ∀ p ∈ S, rank p < k → ∃ n s, GoError.Error h n (.flow p) = some s := by
  induction k with
  | zero => intro p _ hk; exact absurd hk (Nat.not_lt_zero _)
  | succ k ih =>
    intro p hp hk
    obtain ⟨fl, hd, htargets⟩ := acyclicOn_spec hac hp
    have herr : ∀ e ∈ fl.errors, ∃ n s, GoError.Error h n e = some s := by
      intro e he
      apply Error_returns_of_target
      intro q hq
      obtain ⟨hqS, hqr⟩ := htargets q (target_mem_of_error he hq)
      exact ih q hqS (by omega)
    have hchild : ∀ c ∈ fl.children,
        ∃ n s, compactChild (GoError.Error h n) c = some s := by
      intro c hc
      cases c with
      | error e =>
        apply Error_returns_of_target
        intro q hq
        obtain ⟨hqS, hqr⟩ := htargets q (target_mem_of_child hc hq)
        exact ih q hqS (by omega)
      | note t => exact ⟨0, _, rfl⟩
    obtain ⟨n1, es, hes⟩ := collect_of_fuel (GoError.Error h)
      (fun n m a s hnm hs => Error_mono h n m a s hnm hs) fl.errors herr
    obtain ⟨n2, cs, hcs⟩ := collect_of_fuel (fun n => compactChild (GoError.Error h n))
      (fun n m c s hnm hs => compactChild_mono (fun e s hs => Error_mono h n m e s hnm hs) c s hs)
      fl.children hchild
    have hes2 : collect (GoError.Error h (max n1 n2)) fl.errors = some es :=
      collect_mono (fun a _ s hs => Error_mono h _ _ a s (le_max_left _ _) hs) hes
    have hcs2 : collect (compactChild (GoError.Error h (max n1 n2))) fl.children = some cs :=
      collect_mono (fun c _ s hs => compactChild_mono
        (fun e s hs => Error_mono h _ _ e s (le_max_right _ _) hs) c s hs) hcs
    refine ⟨max n1 n2 + 1,
      "flow(" ++ fl.Name ++ "): \x7b" ++ ";".intercalate cs ++ "\x7d", ?_⟩
    simp only [GoError.Error, hd, hes2, hcs2]

/-- `Error()` returns on a flow of a set on which a rank decreases along every
pointer. -/
theorem Error_returns_of_acyclic {h : Heap} {rank : FlowRef → Nat} {S : List FlowRef}
    (hac : h.acyclicOn rank S = true) {p : FlowRef} (hp : p ∈ S) :
    ∃ n s, GoError.Error h n (.flow p) = some s :=
  Error_returns_of_rank hac (rank p + 1) p hp (Nat.lt_succ_self _)

/-! ## The text of a terminal result -/

theorem contains_left (a b : String) : Contains (a ++ b) a :=
  ⟨[], b.data, by simp [String.data_append]⟩

theorem contains_middle (a b c : String) : Contains (a ++ (b ++ c)) b :=
  ⟨a.data, c.data, by simp [String.data_append]⟩

theorem contains_append_left (a : String) {b part : String} (hb : Contains b part) :
    Contains (a ++ b) part := by
  obtain ⟨s, t, hst⟩ := hb
  exact ⟨a.data ++ s, t, by simp [String.data_append, ← hst]⟩

/-- The compact text of a flow starts with `flow(`, its name and `): {`. -/
theorem Error_flow_shape {h : Heap} {n : Nat} {p : FlowRef} {s : String}
    (hs : GoError.Error h n (.flow p) = some s) :
    ∃ fl body, h.deref p = some fl ∧ s = "flow(" ++ (fl.Name ++ ("): \x7b" ++ body ++ "\x7d")) := by
  cases n with
  | zero => simp [GoError.Error] at hs
  | succ n =>
    simp only [GoError.Error] at hs
    cases hd : h.deref p with
    | none => simp [hd] at hs
    | some fl =>
      simp only [hd] at hs
      cases he : collect (GoError.Error h n) fl.errors with
      | none => simp [he] at hs
      | some es =>
        cases hc : collect (compactChild (GoError.Error h n)) fl.children with
        | none => simp [he, hc] at hs
        | some cs =>
          simp only [he, hc, Option.some.injEq] at hs
          exact ⟨fl, ";".intercalate cs, rfl, by rw [← hs]; simp [String.append_assoc]⟩

/-- The compact text of a LabelledError is the label, `": "` and the compact
text of what it wraps, one call deeper. -/
theorem Error_labelled (h : Heap) (n : Nat) (err : GoError) (label fname : String)
    (trace : Option String) :
    GoError.Error h (n + 1) (.labelled err label fname trace)
      = (GoError.Error h n err).map (fun s => label ++ ": " ++ s) := by
  simp only [GoError.Error]
  cases GoError.Error h n err <;> rfl

/-- A sequence of calls one of which passes a non-nil error to the flow `q`
through `Add` or `Check` leaves `errors` of `q` non-empty. -/
theorem run_passesError {h : Heap} {q : FlowRef} {fl : Flow} (calls : List (FlowRef × Op))
    (hpass : ∃ c ∈ calls, c.1 = q ∧ c.2.passesError = true) (hq : h.deref q = some fl) :
    ∃ fl1, (run h calls).deref q = some fl1 ∧ fl1.Name = fl.Name ∧ fl1.errors ≠ [] := by
  induction calls generalizing h fl with
  | nil =>
    obtain ⟨c, hc, -⟩ := hpass
    cases hc
  | cons c rest ih =>
    obtain ⟨self, op⟩ := c
    obtain ⟨c1, hc1, hself, hop⟩ := hpass
    rcases List.mem_cons.mp hc1 with heq | hmem
    · subst heq
      simp only at hself hop
      subst hself
      obtain ⟨fl1, hfl1, hn1, -, ⟨t, he⟩, -⟩ := run_deref rest (invoke_self op hq)
      refine ⟨fl1, hfl1, hn1.trans (effect_name op fl).1, ?_⟩
      rw [he]
      intro hnil
      exact effect_passesError op fl hop (List.append_eq_nil.mp hnil).1
    · obtain ⟨fl0, hfl0, hn0, -, -, -⟩ := invoke_deref self op hq
      obtain ⟨fl1, hfl1, hn1, he1⟩ := ih ⟨c1, hmem, hself, hop⟩ hfl0
      exact ⟨fl1, hfl1, hn1.trans hn0, he1⟩

/-- C2 (amended): after a sequence of calls one of which passes a non-nil error
to a flow through `Add` or `Check`, `Done(label)` on the flow returns a non-nil
error, the LabelledError that wraps the flow itself with `Label = label` and
`Flow` the flow's name; and when the flow belongs to a set of flows none of
which reaches itself through the stored errors and flows, `Error()` on that
result returns, at every sufficient depth, a text that contains the flow's name
and the label. -/
theorem Done_error_text (h : Heap) (self : FlowRef) (fl : Flow)
    (hp : h.deref self = some fl) (calls : List (FlowRef × Op))
    (hpass : ∃ c ∈ calls, c.1 = self ∧ c.2.passesError = true) (label : String) :
    ∃ fl1 erro, (run h calls).deref self = some fl1 ∧ fl1.Name = fl.Name ∧
      Flow.Done self fl1 label = some erro ∧
      erro = LabelledError.toError
        { Err := .flow self, Label := label, Flow := fl1.Name, Trace := none } ∧
      ∀ rank S, (run h calls).acyclicOn rank S = true → self ∈ S →
        ∃ n text, (∀ m, n ≤ m → GoError.Error (run h calls) m erro = some text) ∧
          Contains text fl1.Name ∧ Contains text label := by
  obtain ⟨fl1, hfl1, hn1, he1⟩ := run_passesError calls hpass hp
  refine ⟨fl1, _, hfl1, hn1, Done_of_errors self fl1 label he1, rfl, ?_⟩
  intro rank S hac hS
  obtain ⟨n, s, hs⟩ := Error_returns_of_acyclic hac hS
  obtain ⟨fl2, body, hfl2, hshape⟩ := Error_flow_shape hs
  have hfl : fl1 = fl2 := Option.some.inj (hfl1.symm.trans hfl2)
  subst hfl
  refine ⟨n + 1, label ++ ": " ++ s, fun m hm => ?_, ?_, ?_⟩
  · apply Error_mono _ (n + 1) m _ _ hm
    change GoError.Error _ (n + 1) (.labelled (.flow self) label fl1.Name none) = _
    rw [Error_labelled, hs]
    rfl
  · rw [hshape]
    exact contains_append_left _ (contains_middle _ _ _)
  · rw [String.append_assoc]
    exact contains_left _ _

/-- The path `systemErr` of `fakeLoginCheck`, continued by `f1.Add(err)` and
`f1.Done("bad login")`: the text of the result contains "login check" and
"bad login". -/
theorem Done_error_text_witness :
    ∃ n text, (∀ m, n ≤ m →
        GoError.Error (run loginHeap [(0, .Flow "database error"),
          (1, .Check (some databaseError) "get user record" "stack"),
          (0, .Add (some databaseError))]) m
          (.labelled (.flow 0) "bad login" "login check" none) = some text) ∧
      Contains text "login check" ∧ Contains text "bad login" := by
  obtain ⟨fl1, erro, hfl1, hn1, -, herro, htext⟩ :=
    Done_error_text loginHeap 0 loginRecord rfl
      [(0, .Flow "database error"), (1, .Check (some databaseError) "get user record" "stack"),
       (0, .Add (some databaseError))]
      ⟨(0, .Add (some databaseError)), by decide, rfl, rfl⟩ "bad login"
  have hname : fl1.Name = "login check" := hn1
  rw [hname] at herro htext
  subst herro
  exact htext (fun p => p) [0, 1] (by decide) (by decide)

/-- C2 (as stated, refuted): after `p := NewDefault("login check"); p.Add(p)` a
non-nil error has been passed to `p` through `Add` and `p.Done("bad login")`
returns the LabelledError that wraps `p`, but `Error()` on it returns no text at
any depth: `Flow.Error` calls `Error()` on its own element `p` again. -/
theorem Done_error_text_counterexample :
    ∃ fl, selfHeap.deref 0 = some fl ∧ fl.errors = [.flow 0] ∧
      Flow.Done 0 fl "bad login"
        = some (.labelled (.flow 0) "bad login" "login check" none) ∧
      ∀ fuel, GoError.Error selfHeap fuel (.labelled (.flow 0) "bad login" "login check" none)
        = none := by
  have hd : selfHeap.deref 0 = some
      { Name := "login check", options := defaultOptions,
        children := [.error (.flow 0)], errors := [.flow 0], flows := [], logs := [] } := by
    decide
  have hflow : ∀ n, GoError.Error selfHeap n (.flow 0) = none := by
    intro n
    induction n with
    | zero => rfl
    | succ n ih => simp only [GoError.Error, hd, collect, ih]
  refine ⟨_, hd, rfl, rfl, fun fuel => ?_⟩
  cases fuel with
  | zero => rfl
  | succ n => rw [Error_labelled, hflow n]; rfl

/-! ## Depth of the human-readable rendering -/

theorem textChild_mono (indent : String → String) {f g f2 g2 : GoError → Option String}
    (hfg : ∀ e s, f e = some s → g e = some s) (hfg2 : ∀ e s, f2 e = some s → g2 e = some s)
    (c : Child) (s : String) (hc : textChild indent f f2 c = some s) :
    textChild indent g g2 c = some s := by
  cases c with
  | note t => exact hc
  | error e =>
    simp only [textChild] at hc ⊢
    cases hg : e.hasGetText with
    | true =>
      simp only [hg, if_true] at hc ⊢
      cases hfe : f e with
      | none => simp [hfe] at hc
      | some t => rw [hfg e t hfe]; simpa [hfe] using hc
    | false =>
      simp only [hg] at hc ⊢
      cases hfe : f2 e with
      | none => simp [hfe] at hc
      | some t => rw [hfg2 e t hfe]; simpa [hfe] using hc

/-- A call of `GetText()` that returns within a depth returns the same text
within a larger one. -/
theorem GetText_mono_succ (indent : String → String) (h : Heap) (n : Nat) :
    ∀ e s, GoError.GetText indent h n e = some s →
      GoError.GetText indent h (n + 1) e = some s := by
  induction n with
  | zero => intro e s hs; simp [GoError.GetText] at hs
  | succ n ih =>
    intro e s hs
    cases e with
    | ext msg text => simpa [GoError.GetText] using hs
    | labelled err label fname trace =>
      simp only [GoError.GetText] at hs ⊢
      cases hg : err.hasGetText with
      | true =>
        simp only [hg, if_true] at hs ⊢
        cases hin : GoError.GetText indent h n err with
        | none => simp [hin] at hs
        | some t => rw [ih err t hin]; simpa [hin] using hs
      | false =>
        simp only [hg] at hs ⊢
        cases hin : GoError.Error h n err with
        | none => simp [hin] at hs
        | some t => rw [Error_mono_succ h n err t hin]; simpa [hin] using hs
    | flow p =>
      simp only [GoError.GetText] at hs ⊢
      cases hd : h.deref p with
      | none => simp [hd] at hs
      | some fl =>
        simp only [hd] at hs ⊢
        cases hc : collect (textChild indent (GoError.GetText indent h n) (GoError.Error h n))
            fl.children with
        | none => simp [hc] at hs
        | some cs =>
          rw [collect_mono (fun c _ s hs =>
            textChild_mono indent ih (Error_mono_succ h n) c s hs) hc]
          simpa [hc] using hs

theorem GetText_mono (indent : String → String) (h : Heap) (n m : Nat) (e : GoError)
    (s : String) (hnm : n ≤ m) (hs : GoError.GetText indent h n e = some s) :
    GoError.GetText indent h m e = some s := by
  induction hnm with
  | refl => exact hs
  | step _ ih => exact GetText_mono_succ indent h _ e s ih

/-- An error value that has `GetText` renders once the flow it points to, if
any, does. -/
theorem GetText_returns_of_target (indent : String → String) (h : Heap) (e : GoError)
    (hg : e.hasGetText = true)
    (ht : ∀ q, e.target = some q → ∃ n s, GoError.GetText indent h n (.flow q) = some s) :
    ∃ n s, GoError.GetText indent h n e = some s := by
  induction e with
  | ext msg text =>
    cases text with
    | none => simp [GoError.hasGetText] at hg
    | some t => exact ⟨1, t, rfl⟩
  | labelled err label fname trace ih =>
    cases hge : err.hasGetText with
    | true =>
      obtain ⟨n, s, hs⟩ := ih hge (fun q hq => ht q hq)
      exact ⟨n + 1, label ++ ": " ++ s, by simp [GoError.GetText, hge, hs]⟩
    | false =>
      cases err with
      | ext msg text =>
        cases trace with
        | none => exact ⟨2, label ++ ": " ++ msg ++ "\n", by simp [GoError.GetText, hge, GoError.Error]⟩
        | some tr =>
          exact ⟨2, label ++ ": " ++ msg ++ "\n" ++ (indent tr ++ "\n"),
            by simp [GoError.GetText, hge, GoError.Error]⟩
      | labelled _ _ _ _ => simp [GoError.hasGetText] at hge
      | flow _ => simp [GoError.hasGetText] at hge
  | flow p => exact ht p rfl

/-- The flows of a set on which a rank decreases along every pointer render:
`GetText()` returns on each of them. -/
theorem GetText_returns_of_rank (indent : String → String) {h : Heap} {rank : FlowRef → Nat}
    {S : List FlowRef} (hac : h.acyclicOn rank S = true) (k : Nat) :
    ∀ p ∈ S, rank p < k → ∃ n s, GoError.GetText indent h n (.flow p) = some s := by
  induction k with
  | zero => intro p _ hk; exact absurd hk (Nat.not_lt_zero _)
  | succ k ih =>
    intro p hp hk
    obtain ⟨fl, hd, htargets⟩ := acyclicOn_spec hac hp
    have hchild : ∀ c ∈ fl.children, ∃ n s,
        textChild indent (GoError.GetText indent h n) (GoError.Error h n) c = some s := by
      intro c hc
      cases c with
      | note t => exact ⟨0, _, rfl⟩
      | error e =>
        cases hg : e.hasGetText with
        | true =>
          have hret : ∃ n s, GoError.GetText indent h n e = some s := by
            apply GetText_returns_of_target indent h e hg
            intro q hq
            obtain ⟨hqS, hqr⟩ := htargets q (target_mem_of_child hc hq)
            exact ih q hqS (by omega)
          obtain ⟨n, s, hs⟩ := hret
          exact ⟨n, "\t- " ++ indent s, by simp [textChild, hg, hs]⟩
        | false =>
          cases e with
          | ext msg text =>
            exact ⟨1, "\t- error: " ++ indent msg ++ "\n",
              by simp [textChild, hg, GoError.Error]⟩
          | labelled _ _ _ _ => simp [GoError.hasGetText] at hg
          | flow _ => simp [GoError.hasGetText] at hg
    obtain ⟨n, cs, hcs⟩ := collect_of_fuel
      (fun n => textChild indent (GoError.GetText indent h n) (GoError.Error h n))
      (fun n m c s hnm hs => textChild_mono indent
        (fun e s hs => GetText_mono indent h n m e s hnm hs)
        (fun e s hs => Error_mono h n m e s hnm hs) c s hs)
      fl.children hchild
    by_cases hlen : cs.length = 0
    · exact ⟨n + 1, "Flow " ++ fl.Name ++ ": (nothing to report)\n",
        by simp only [GoError.GetText, hd, hcs, hlen, if_true]⟩
    · exact ⟨n + 1, "Flow " ++ fl.Name ++ ":\n" ++ "".intercalate cs,
        by simp only [GoError.GetText, hd, hcs, hlen, if_false]⟩

/-- `GetText()` returns on a flow of a set on which a rank decreases along every
pointer. -/
theorem GetText_returns_of_acyclic (indent : String → String) {h : Heap}
    {rank : FlowRef → Nat} {S : List FlowRef} (hac : h.acyclicOn rank S = true)
    {p : FlowRef} (hp : p ∈ S) : ∃ n s, GoError.GetText indent h n (.flow p) = some s :=
  GetText_returns_of_rank indent hac (rank p + 1) p hp (Nat.lt_succ_self _)

/-- The human-readable text of a LabelledError that wraps a flow is the label,
`": "` and the human-readable text of the flow, one call deeper. -/
theorem GetText_labelled_flow (indent : String → String) (h : Heap) (n : Nat) (p : FlowRef)
    (label fname : String) (trace : Option String) :
    GoError.GetText indent h (n + 1) (.labelled (.flow p) label fname trace)
      = (GoError.GetText indent h n (.flow p)).map (fun t => label ++ ": " ++ t) := by
  simp only [GoError.GetText, GoError.hasGetText, if_true]
  cases GoError.GetText indent h n (.flow p) <;> rfl

/-! ## Abort, LabelError and the compact form -/

/-- C8 (amended): on a flow whose option PrintStderrOnAbort is off, or which
has no children, or which belongs to a set of flows none of which reaches itself
through the stored errors and flows, `Abort(label)` returns, at every sufficient
depth, a non-nil error: the LabelledError that wraps the flow itself with
`Label = label` and `Flow` the flow's name.  The compact text of that error is
`label + ": "` followed by the flow's `Error()` and its human-readable text is
`label + ": "` followed by the flow's `GetText()`, and the call changes nothing
in the heap. -/
theorem Abort_spec (indent : String → String) (h : Heap) (self : FlowRef) (fl : Flow)
    (hp : h.deref self = some fl) (label : String)
    (hret : fl.options.PrintStderrOnAbort = false ∨ fl.children = [] ∨
      ∃ rank S, h.acyclicOn rank S = true ∧ self ∈ S) :
    ∃ erro, erro = LabelledError.toError
        { Err := .flow self, Label := label, Flow := fl.Name, Trace := none } ∧
      (∃ n out, ∀ m, n ≤ m → Flow.Abort indent h m self fl label = some (erro, out)) ∧
      (∀ n, GoError.Error h (n + 1) erro
        = (Flow.Error h n self).map (fun t => label ++ ": " ++ t)) ∧
      (∀ n, GoError.GetText indent h (n + 1) erro
        = (Flow.GetText indent h n self).map (fun t => label ++ ": " ++ t)) ∧
      invoke h self (.Abort label) = h := by
  refine ⟨_, rfl, ?_, fun n => Error_labelled h n _ _ _ _,
    fun n => GetText_labelled_flow indent h n _ _ _ _, by simp only [invoke, hp]⟩
  cases hopt : fl.options.PrintStderrOnAbort with
  | false => exact ⟨0, none, fun m _ => by simp [Flow.Abort, hopt]⟩
  | true =>
    have hflow : ∃ n t, GoError.GetText indent h n (.flow self) = some t := by
      rcases hret with hoff | hnil | ⟨rank, S, hac, hS⟩
      · rw [hopt] at hoff; cases hoff
      · exact ⟨1, "Flow " ++ fl.Name ++ ": (nothing to report)\n",
          by simp [GoError.GetText, hp, hnil, collect]⟩
      · exact GetText_returns_of_acyclic indent hac hS
    obtain ⟨n, t, ht⟩ := hflow
    refine ⟨n + 1, some (label ++ ": " ++ t), fun m hm => ?_⟩
    have hm1 : GoError.GetText indent h (n + 1) (.labelled (.flow self) label fl.Name none)
        = some (label ++ ": " ++ t) := by
      rw [GetText_labelled_flow, ht]; rfl
    have hm2 := GetText_mono indent h (n + 1) m _ _ hm hm1
    simp only [Flow.Abort, hopt, LabelledError.GetText, LabelledError.toError, if_true, hm2]

/-- The call `f2.Abort("system")` of `fakeLoginCheck`, on flows that write to
stderr. -/
theorem Abort_spec_witness :
    ∃ erro, erro = LabelledError.toError
        { Err := .flow 1, Label := "system", Flow := "database error", Trace := none } ∧
      (∃ n out, ∀ m, n ≤ m →
        Flow.Abort id abortHeap m 1 abortRecord "system" = some (erro, out)) ∧
      (∀ n, GoError.Error abortHeap (n + 1) erro
        = (Flow.Error abortHeap n 1).map (fun t => "system" ++ ": " ++ t)) ∧
      (∀ n, GoError.GetText id abortHeap (n + 1) erro
        = (Flow.GetText id abortHeap n 1).map (fun t => "system" ++ ": " ++ t)) ∧
      invoke abortHeap 1 (.Abort "system") = abortHeap :=
  Abort_spec id abortHeap 1 abortRecord (by decide) "system"
    (Or.inr (Or.inr ⟨fun p => p, [0, 1], by decide, by decide⟩))

/-- C8 (as stated, refuted): after `p := echoOptions.New("login check"); p.Add(p)`
the call `p.Abort("system")` returns nothing at any depth, whatever
`rwstrings.Indent` is: it calls `erro.GetText()` for stderr, and `Flow.GetText`
calls `GetText()` on its own child `p` again. -/
theorem Abort_spec_counterexample :
    ∃ fl, echoSelfHeap.deref 0 = some fl ∧ fl.options.PrintStderrOnAbort = true ∧
      ∀ (indent : String → String) (fuel : Nat),
        Flow.Abort indent echoSelfHeap fuel 0 fl "system" = none := by
  have hd : echoSelfHeap.deref 0 = some
      { Name := "login check", options := echoOptions,
        children := [.error (.flow 0)], errors := [.flow 0], flows := [], logs := [] } := by
    decide
  refine ⟨_, hd, rfl, fun indent fuel => ?_⟩
  have hflow : ∀ n, GoError.GetText indent echoSelfHeap n (.flow 0) = none := by
    intro n
    induction n with
    | zero => rfl
    | succ n ih =>
      simp only [GoError.GetText, hd, collect, textChild, GoError.hasGetText, if_true, ih]
  have hlab : GoError.GetText indent echoSelfHeap fuel
      (.labelled (.flow 0) "system" "login check" none) = none := by
    cases fuel with
    | zero => rfl
    | succ n => rw [GetText_labelled_flow, hflow n]; rfl
  simp only [Flow.Abort, echoOptions, LabelledError.GetText, LabelledError.toError, if_true, hlab]

/-- C9: `LabelError(nil, L)` is nil, and for a non-nil `err` the result of
`LabelError(err, L)` is a non-nil error whose `Error()` is `L + ": "` followed by
`err.Error()`: it returns that text, one call deeper, whenever `err.Error()`
returns. -/
theorem LabelError_spec (h : Heap) (L : String) :
    LabelError none L = none ∧
    ∀ err : GoError, ∃ erro, LabelError (some err) L = some erro ∧
      (∀ n, GoError.Error h (n + 1) erro
        = (GoError.Error h n err).map (fun s => L ++ ": " ++ s)) ∧
      (∀ n s, GoError.Error h n err = some s →
        GoError.Error h (n + 1) erro = some (L ++ ": " ++ s)) := by
  refine ⟨rfl, fun err => ⟨_, rfl, fun n => Error_labelled h n _ _ _ _, fun n s hs => ?_⟩⟩
  change GoError.Error h (n + 1) (.labelled err L "" none) = _
  rw [Error_labelled, hs]
  rfl

/-! ## Reachable heaps -/

theorem deref_append_singleton {h : Heap} {x fl : Flow} {p : FlowRef}
    (hp : Heap.deref (h ++ [x]) p = some fl) : h.deref p = some fl ∨ fl = x := by
  simp only [Heap.deref] at hp ⊢
  by_cases hlt : p < h.length
  · rw [List.getElem?_append_left hlt] at hp
    exact Or.inl hp
  · rw [List.getElem?_append_right (Nat.le_of_not_lt hlt)] at hp
    obtain ⟨_, hx⟩ := List.getElem?_eq_some.mp hp
    simp only [List.getElem_singleton] at hx
    exact Or.inr hx.symm

theorem deref_store_inv {h : Heap} {self p : FlowRef} {fl0 fl1 : Flow}
    (hp : (h.store self fl0).deref p = some fl1) : fl1 = fl0 ∨ h.deref p = some fl1 := by
  simp only [Heap.deref, Heap.store, List.getElem?_set] at hp ⊢
  split at hp
  · split at hp
    · exact Or.inl (Option.some.inj hp).symm
    · cases hp
  · exact Or.inr hp

/-- A record of the heap after a call is a record of the heap before it, such a
record changed by the call, or the record of a flow that `Flow(name)` has just
made. -/
theorem invoke_deref_inv {h : Heap} {self p : FlowRef} {op : Op} {fl1 : Flow}
    (hp : (invoke h self op).deref p = some fl1) :
    h.deref p = some fl1 ∨ (∃ fl, h.deref self = some fl ∧ fl1 = op.effect fl) ∨
      (∃ options name, fl1 = (FlowOptions.newRecord options name).addFlow self) := by
  unfold invoke at hp
  cases hs : h.deref self with
  | none => rw [hs] at hp; exact Or.inl hp
  | some fl =>
    rw [hs] at hp
    cases op with
    | Flow name =>
      simp only [Flow_eq] at hp
      rcases deref_append_singleton hp with hold | hnew
      · exact Or.inl hold
      · exact Or.inr (Or.inr ⟨_, _, hnew⟩)
    | Add err =>
      rcases deref_store_inv hp with heq | hold
      · exact Or.inr (Or.inl ⟨fl, rfl, heq⟩)
      · exact Or.inl hold
    | Check err label stack =>
      rcases deref_store_inv hp with heq | hold
      · exact Or.inr (Or.inl ⟨fl, rfl, heq⟩)
      · exact Or.inl hold
    | Must check message stack =>
      rcases deref_store_inv hp with heq | hold
      · exact Or.inr (Or.inl ⟨fl, rfl, heq⟩)
      · exact Or.inl hold
    | Log note =>
      rcases deref_store_inv hp with heq | hold
      · exact Or.inr (Or.inl ⟨fl, rfl, heq⟩)
      · exact Or.inl hold
    | LogWithTime note now =>
      rcases deref_store_inv hp with heq | hold
      · exact Or.inr (Or.inl ⟨fl, rfl, heq⟩)
      · exact Or.inl hold
    | Abort label => exact Or.inl hp
    | Done label => exact Or.inl hp
    | Error => exact Or.inl hp
    | GetText => exact Or.inl hp

/-- A property of flow records that holds of the records `New` and `Flow(name)`
make and that every call preserves holds of every record of a reachable heap. -/
theorem Reachable.record_induction (P : Flow → Prop)
    (hnew : ∀ options name, P (FlowOptions.newRecord options name))
    (hspawn : ∀ options name self, P ((FlowOptions.newRecord options name).addFlow self))
    (heffect : ∀ (op : Op) fl, P fl → P (op.effect fl))
    {h : Heap} (hr : Reachable h) : ∀ p fl, h.deref p = some fl → P fl := by
  induction hr with
  | empty => intro p fl hp; simp [Heap.deref] at hp
  | new h options name _ ih =>
    intro p fl hp
    rcases deref_append_singleton hp with hold | hnew1
    · exact ih p fl hold
    · rw [hnew1]; exact hnew options name
  | call h self op _ ih =>
    intro p fl hp
    rcases invoke_deref_inv hp with hold | ⟨fl0, hs, heq⟩ | ⟨options, name, heq⟩
    · exact ih p fl hold
    · rw [heq]; exact heffect op fl0 (ih self fl0 hs)
    · rw [heq]; exact hspawn options name self

/-- In a reachable heap every element of a flow's `errors` is among its
`children`. -/
theorem errors_among_children {h : Heap} (hr : Reachable h) {p : FlowRef} {fl : Flow}
    (hp : h.deref p = some fl) : ∀ e ∈ fl.errors, Child.error e ∈ fl.children := by
  refine Reachable.record_induction (fun fl => ∀ e ∈ fl.errors, Child.error e ∈ fl.children)
    ?_ ?_ ?_ hr p fl hp
  · intro options name e he
    simp [FlowOptions.newRecord] at he
  · intro options name self e he
    simp [FlowOptions.newRecord, Flow.addFlow, Flow.add] at he
  · intro op fl ih e he
    have happ : ∀ (x : GoError), e ∈ fl.errors ++ [x] →
        Child.error e ∈ fl.children ++ [Child.error x] := by
      intro x hx
      rcases List.mem_append.mp hx with hold | hlast
      · exact List.mem_append_left _ (ih e hold)
      · rw [List.mem_singleton.mp hlast]
        exact List.mem_append_right _ (List.mem_singleton_self _)
    cases op with
    | Add err =>
      cases err with
      | none => exact ih e he
      | some x => exact happ x he
    | Check err label stack =>
      cases err with
      | none => exact ih e he
      | some x => exact happ _ he
    | Must check message stack =>
      cases check with
      | true => exact ih e he
      | false => exact happ _ he
    | Log note => exact List.mem_append_left _ (ih e he)
    | LogWithTime note now => exact List.mem_append_left _ (ih e he)
    | Flow name => exact ih e he
    | Abort label => exact ih e he
    | Done label => exact ih e he
    | Error => exact ih e he
    | GetText => exact ih e he

/-! ## The compact form -/

theorem collect_of_forall {α : Type} (f : α → Option String) (l : List α)
    (hl : ∀ a ∈ l, ∃ s, f a = some s) : ∃ ss, collect f l = some ss := by
  induction l with
  | nil => exact ⟨[], rfl⟩
  | cons a as ih =>
    obtain ⟨s, hs⟩ := hl a (List.mem_cons_self _ _)
    obtain ⟨ss, hss⟩ := ih (fun a ha => hl a (List.mem_cons_of_mem _ ha))
    exact ⟨s :: ss, by simp only [collect, hs, hss]⟩

theorem collect_mem {α : Type} {f : α → Option String} {l : List α} {ss : List String}
    (hc : collect f l = some ss) : ∀ a ∈ l, ∃ s, f a = some s := by
  rw [collect_eq_some_iff] at hc
  induction hc with
  | nil => intro a ha; cases ha
  | cons hfa _ ih =>
    intro a ha
    rcases List.mem_cons.mp ha with heq | hmem
    · rw [heq]; exact ⟨_, hfa⟩
    · exact ih a hmem

theorem compactChild_iff (h : Heap) (n : Nat) (c : Child) (s : String) :
    compactChild (GoError.Error h n) c = some s ↔ rendersCompact h n c s := by
  cases c with
  | error e => exact Iff.rfl
  | note text =>
    simp only [compactChild, rendersCompact, Option.some.injEq]
    exact eq_comm

/-- C10: on a flow of a reachable heap, `Error()` returns a text exactly when
every child renders, and the text is then `"flow(" + Name + "): {"`, the
children's renderings joined by `";"` in the order of `children`, and `"}"`;
an error child, raw or labelled, renders as its own `Error()` text, a nested
flow as its own compact form and a note as `"note(" + text + ")"`.  A flow
without children renders as `"flow(" + Name + "): {}"`. -/
theorem Error_compact_form (h : Heap) (hr : Reachable h) (p : FlowRef) (fl : Flow)
    (hp : h.deref p = some fl) (n : Nat) :
    (∀ t, Flow.Error h (n + 1) p = some t ↔
      ∃ ts, List.Forall₂ (rendersCompact h n) fl.children ts ∧
        t = "flow(" ++ fl.Name ++ "): \x7b" ++ ";".intercalate ts ++ "\x7d") ∧
    (∀ e s, rendersCompact h n (.error e) s ↔ GoError.Error h n e = some s) ∧
    (∀ q s, rendersCompact h n (.error (.flow q)) s ↔ Flow.Error h n q = some s) ∧
    (∀ text s, rendersCompact h n (.note text) s ↔ s = "note(" ++ text ++ ")") ∧
    (fl.children = [] → Flow.Error h (n + 1) p = some ("flow(" ++ fl.Name ++ "): \x7b\x7d")) := by
  have hiff : ∀ ts, collect (compactChild (GoError.Error h n)) fl.children = some ts ↔
      List.Forall₂ (rendersCompact h n) fl.children ts := by
    intro ts
    rw [collect_eq_some_iff]
    constructor
    · exact fun hf => hf.imp (fun c s hc => (compactChild_iff h n c s).mp hc)
    · exact fun hf => hf.imp (fun c s hc => (compactChild_iff h n c s).mpr hc)
  have herrors : ∀ ts, collect (compactChild (GoError.Error h n)) fl.children = some ts →
      ∃ es, collect (GoError.Error h n) fl.errors = some es := by
    intro ts hts
    apply collect_of_forall
    intro e he
    exact collect_mem hts (.error e) (errors_among_children hr hp e he)
  have hmain : ∀ t, Flow.Error h (n + 1) p = some t ↔
      ∃ ts, List.Forall₂ (rendersCompact h n) fl.children ts ∧
        t = "flow(" ++ fl.Name ++ "): \x7b" ++ ";".intercalate ts ++ "\x7d" := by
    intro t
    simp only [Flow.Error, GoError.Error, hp]
    constructor
    · intro hs
      cases he : collect (GoError.Error h n) fl.errors with
      | none => simp [he] at hs
      | some es =>
        cases hc : collect (compactChild (GoError.Error h n)) fl.children with
        | none => simp [he, hc] at hs
        | some cs =>
          simp only [he, hc, Option.some.injEq] at hs
          exact ⟨cs, (hiff cs).mp hc, hs.symm⟩
    · rintro ⟨ts, hts, ht⟩
      have hc := (hiff ts).mpr hts
      obtain ⟨es, he⟩ := herrors ts hc
      simp only [he, hc, ht]
  refine ⟨hmain, fun e s => Iff.rfl, fun q s => Iff.rfl, fun text s => Iff.rfl, ?_⟩
  intro hnil
  apply (hmain _).mpr
  have hbrace : "): \x7b\x7d" = "): \x7b" ++ "\x7d" := by decide
  refine ⟨[], ?_, ?_⟩
  · rw [hnil]
    exact List.Forall₂.nil
  · simp only [String.intercalate, String.append_empty]
    rw [String.append_assoc _ _ "\x7d", ← hbrace]

/-- The compact form of "login check" after a note, an error and a spawned flow:
`flow(login check): {note(started);database: generic database error}`. -/
theorem Error_compact_form_witness :
    Flow.Error compactHeap 2 0
      = some "flow(login check): \x7bnote(started);database: generic database error\x7d" ∧
    Flow.Error compactHeap 3 1 = some ("flow(database error): \x7b"
      ++ "flow(login check): \x7bnote(started);database: generic database error\x7d" ++ "\x7d") := by
  have hr : Reachable compactHeap :=
    .call _ _ _ (.call _ _ _ (.call _ _ _ (.new _ _ _ .empty)))
  have h0 := Error_compact_form compactHeap hr 0
    { Name := "login check", options := defaultOptions,
      children := [.note "started", .error databaseError],
      errors := [databaseError], flows := [], logs := ["started"] } (by decide) 1
  have h1 := Error_compact_form compactHeap hr 1
    { Name := "database error", options := defaultOptions,
      children := [.error (.flow 0)], errors := [], flows := [0], logs := [] } (by decide) 2
  have t0 : Flow.Error compactHeap 2 0
      = some "flow(login check): \x7bnote(started);database: generic database error\x7d" :=
    (h0.1 _).mpr ⟨["note(started)", "database: generic database error"],
      .cons rfl (.cons rfl .nil), by decide⟩
  refine ⟨t0, (h1.1 _).mpr ⟨["flow(login check): \x7bnote(started);database: generic database error\x7d"],
      .cons t0 .nil, by decide⟩⟩

/-! ## The human-readable form -/

theorem intercalate_go_empty (acc : String) (l : List String) :
    String.intercalate.go acc "" l = acc ++ concatAll l := by
  induction l generalizing acc with
  | nil => simp [String.intercalate.go, concatAll]
  | cons a as ih =>
    simp only [String.intercalate.go, concatAll]
    rw [ih, String.append_empty, String.append_assoc]

/-- Joining with the empty separator is concatenation. -/
theorem intercalate_empty (l : List String) : "".intercalate l = concatAll l := by
  cases l with
  | nil => rfl
  | cons a as => simp only [String.intercalate, concatAll]; exact intercalate_go_empty a as

/-- The header of a flow with children is not the text of a flow without. -/
theorem header_ne_nothing (name rest : String) :
    "Flow " ++ name ++ ":\n" ++ rest ≠ "Flow " ++ name ++ ": (nothing to report)\n" := by
  intro heq
  have hdata := congrArg String.data heq
  simp only [String.data_append, List.append_assoc, List.append_cancel_left_eq] at hdata
  simp at hdata

theorem textChild_iff (indent : String → String) (h : Heap) (n : Nat) (c : Child) (s : String) :
    textChild indent (GoError.GetText indent h n) (GoError.Error h n) c = some s
      ↔ rendersText indent h n c s := by
  cases c with
  | note text =>
    simp only [textChild, rendersText, Option.some.injEq]
    exact eq_comm
  | error e =>
    simp only [textChild, rendersText]
    cases hg : e.hasGetText with
    | true =>
      cases ht : GoError.GetText indent h n e with
      | none => simp
      | some t => simp [eq_comm]
    | false =>
      cases hm : GoError.Error h n e with
      | none => simp
      | some m => simp [eq_comm]

theorem collect_length {α : Type} {f : α → Option String} {l : List α} {ss : List String}
    (hc : collect f l = some ss) : ss.length = l.length := by
  rw [collect_eq_some_iff] at hc
  exact hc.length_eq.symm

/-- What `Flow.GetText` returns, in terms of the bullets of the children. -/
theorem GetText_flow_iff (indent : String → String) (h : Heap) (n : Nat) (p : FlowRef)
    (fl : Flow) (hp : h.deref p = some fl) (t : String) :
    GoError.GetText indent h (n + 1) (.flow p) = some t ↔
      ∃ ts, List.Forall₂ (rendersText indent h n) fl.children ts ∧
        t = if fl.children = [] then "Flow " ++ fl.Name ++ ": (nothing to report)\n"
            else "Flow " ++ fl.Name ++ ":\n" ++ concatAll ts := by
  have hiff : ∀ ts, collect (textChild indent (GoError.GetText indent h n) (GoError.Error h n))
      fl.children = some ts ↔ List.Forall₂ (rendersText indent h n) fl.children ts := by
    intro ts
    rw [collect_eq_some_iff]
    constructor
    · exact fun hf => hf.imp (fun c s hc => (textChild_iff indent h n c s).mp hc)
    · exact fun hf => hf.imp (fun c s hc => (textChild_iff indent h n c s).mpr hc)
  simp only [GoError.GetText, hp]
  constructor
  · intro hs
    cases hc : collect (textChild indent (GoError.GetText indent h n) (GoError.Error h n))
        fl.children with
    | none => simp [hc] at hs
    | some cs =>
      have hlen := collect_length hc
      refine ⟨cs, (hiff cs).mp hc, ?_⟩
      simp only [hc] at hs
      by_cases hnil : fl.children = []
      · have hz : cs.length = 0 := by rw [hlen, hnil]; rfl
        simp only [hz, if_true, Option.some.injEq] at hs
        simp only [hnil, if_true]
        exact hs.symm
      · have hz : ¬ cs.length = 0 := by
          rw [hlen]; exact fun h0 => hnil (List.length_eq_zero.mp h0)
        simp only [hz, if_false, Option.some.injEq] at hs
        simp only [hnil, if_false]
        rw [← intercalate_empty]
        exact hs.symm
  · rintro ⟨ts, hts, ht⟩
    have hc := (hiff ts).mpr hts
    have hlen := collect_length hc
    simp only [hc]
    by_cases hnil : fl.children = []
    · have hz : ts.length = 0 := by rw [hlen, hnil]; rfl
      simp only [hz, if_true, ht, hnil]
    · have hz : ¬ ts.length = 0 := by
        rw [hlen]; exact fun h0 => hnil (List.length_eq_zero.mp h0)
      simp only [hz, if_false, ht, hnil, intercalate_empty]

/-- C11: on a flow with at least one child, `GetText()` returns a text exactly
when every child renders, and the text is then the header line
`"Flow " + Name + ":\n"` followed by one bullet per child in the order of
`children`: `"\t- "` and the indented `GetText()` of a child that has `GetText`
(a nested flow, a labelled error), `"\t- error: "`, the indented `Error()` text
and a newline for a plain error, `"\t- log: "`, the text and a newline for a
note.  `indent` is `rwstrings.Indent`. -/
theorem GetText_form (indent : String → String) (h : Heap) (p : FlowRef) (fl : Flow)
    (hp : h.deref p = some fl) (hchildren : fl.children ≠ []) (n : Nat) :
    (∀ t, Flow.GetText indent h (n + 1) p = some t ↔
      ∃ ts, List.Forall₂ (rendersText indent h n) fl.children ts ∧
        t = "Flow " ++ fl.Name ++ ":\n" ++ concatAll ts) ∧
    (∀ e s, e.hasGetText = true → (rendersText indent h n (.error e) s ↔
      ∃ t, GoError.GetText indent h n e = some t ∧ s = "\t- " ++ indent t)) ∧
    (∀ q, (GoError.flow q).hasGetText = true) ∧
    (∀ err label fname trace, (GoError.labelled err label fname trace).hasGetText = true) ∧
    (∀ e s, e.hasGetText = false → (rendersText indent h n (.error e) s ↔
      ∃ m, GoError.Error h n e = some m ∧ s = "\t- error: " ++ indent m ++ "\n")) ∧
    (∀ text s, rendersText indent h n (.note text) s ↔ s = "\t- log: " ++ text ++ "\n") := by
  refine ⟨fun t => ?_, fun e s hg => ?_, fun _ => rfl, fun _ _ _ _ => rfl, fun e s hg => ?_,
    fun _ _ => Iff.rfl⟩
  · have hmain := GetText_flow_iff indent h n p fl hp t
    simp only [hchildren, if_false] at hmain
    exact hmain
  · simp [rendersText, hg]
  · simp [rendersText, hg]

/-- The human-readable form of "database error" in `abortHeap`: a bullet for
"login check", one for each note and one for the labelled error. -/
theorem GetText_form_witness :
    (∀ t, Flow.GetText id abortHeap (3 + 1) 1 = some t ↔
      ∃ ts, List.Forall₂ (rendersText id abortHeap 3) abortRecord.children ts ∧
        t = "Flow " ++ abortRecord.Name ++ ":\n" ++ concatAll ts) ∧
    (∀ e s, e.hasGetText = true → (rendersText id abortHeap 3 (.error e) s ↔
      ∃ t, GoError.GetText id abortHeap 3 e = some t ∧ s = "\t- " ++ id t)) ∧
    (∀ q, (GoError.flow q).hasGetText = true) ∧
    (∀ err label fname trace, (GoError.labelled err label fname trace).hasGetText = true) ∧
    (∀ e s, e.hasGetText = false → (rendersText id abortHeap 3 (.error e) s ↔
      ∃ m, GoError.Error abortHeap 3 e = some m ∧ s = "\t- error: " ++ id m ++ "\n")) ∧
    (∀ text s, rendersText id abortHeap 3 (.note text) s ↔ s = "\t- log: " ++ text ++ "\n") :=
  GetText_form id abortHeap 1 abortRecord (by decide) (by decide) 3

/-- C12: the `GetText()` of a LabelledError.  When the wrapped error has
`GetText` (a flow, another LabelledError) it is `Label + ": "` followed by the
wrapped error's `GetText()`, whatever the trace; otherwise it is
`Label + ": " + Err.Error() + "\n"`, followed by the indented trace and a
newline when a trace was captured and by nothing when the trace is nil.  Hence
for the error `r` that `f.Abort(a)` returns, `LabelError(r, b).GetText()` is
`b + ": " + a + ": "` followed by `f.GetText()`. -/
theorem LabelledError_GetText_spec (indent : String → String) (h : Heap)
    (erro : LabelledError) (n : Nat) :
    (erro.Err.hasGetText = true →
      erro.GetText indent h (n + 1)
        = (GoError.GetText indent h n erro.Err).map (fun t => erro.Label ++ ": " ++ t)) ∧
    (erro.Err.hasGetText = false → erro.Trace = none →
      erro.GetText indent h (n + 1)
        = (GoError.Error h n erro.Err).map (fun s => erro.Label ++ ": " ++ s ++ "\n")) ∧
    (erro.Err.hasGetText = false → ∀ tr, erro.Trace = some tr →
      erro.GetText indent h (n + 1)
        = (GoError.Error h n erro.Err).map
            (fun s => erro.Label ++ ": " ++ s ++ "\n" ++ (indent tr ++ "\n"))) ∧
    (∀ self fl a b fuel r, Flow.Abort indent h fuel self fl a = some r →
      ∃ le, LabelError (some r.1) b = some le ∧
        GoError.GetText indent h (n + 2) le
          = (Flow.GetText indent h n self).map (fun t => b ++ ": " ++ a ++ ": " ++ t)) := by
  obtain ⟨err, label, fname, trace⟩ := erro
  refine ⟨?_, ?_, ?_, ?_⟩
  · intro hg
    simp only [LabelledError.GetText, LabelledError.toError, GoError.GetText, hg, if_true]
    cases GoError.GetText indent h n err <;> rfl
  · intro hg htr
    simp only at hg htr
    subst htr
    simp only [LabelledError.GetText, LabelledError.toError, GoError.GetText, hg]
    cases GoError.Error h n err <;> rfl
  · intro hg tr htr
    simp only at hg htr
    subst htr
    simp only [LabelledError.GetText, LabelledError.toError, GoError.GetText, hg]
    cases GoError.Error h n err <;> rfl
  · intro self fl a b fuel r hr
    have hr1 : r.1 = .labelled (.flow self) a fl.Name none := by
      simp only [Flow.Abort, LabelledError.toError] at hr
      split at hr
      · split at hr
        · cases hr
        · cases hr; rfl
      · cases hr; rfl
    refine ⟨_, rfl, ?_⟩
    rw [hr1]
    simp only [LabelledError.toError, GoError.GetText, GoError.hasGetText, if_true, Flow.GetText]
    cases GoError.GetText indent h n (.flow self) with
    | none => rfl
    | some t => simp [String.append_assoc]

/-- The error of `TestExcFlow`, `LabelError(f2.Abort("system"), "test")`, and a
labelled error as `f2.Check` records it. -/
theorem LabelledError_GetText_spec_witness :
    (∃ le, LabelError (some (GoError.labelled (.flow 1) "system" "database error" none)) "test"
        = some le ∧
      GoError.GetText id compactHeap (3 + 2) le
        = (Flow.GetText id compactHeap 3 1).map
            (fun t => "test" ++ ": " ++ "system" ++ ": " ++ t)) ∧
    LabelledError.GetText id compactHeap (1 + 1)
        { Err := databaseError, Label := "get user record", Flow := "database error",
          Trace := some "stack" }
      = (GoError.Error compactHeap 1 databaseError).map
          (fun s => "get user record" ++ ": " ++ s ++ "\n" ++ (id "stack" ++ "\n")) :=
  ⟨(LabelledError_GetText_spec id compactHeap
      { Err := databaseError, Label := "get user record", Flow := "database error",
        Trace := some "stack" } 3).2.2.2 1
      { Name := "database error", options := defaultOptions, children := [.error (.flow 0)],
        errors := [], flows := [0], logs := [] }
      "system" "test" 5 (.labelled (.flow 1) "system" "database error" none, none) rfl,
   (LabelledError_GetText_spec id compactHeap
      { Err := databaseError, Label := "get user record", Flow := "database error",
        Trace := some "stack" } 1).2.2.1 rfl "stack" rfl⟩

/-- C13: on a flow without children `GetText()` returns exactly
`"Flow " + Name + ": (nothing to report)\n"`, and it returns that string on no
flow that has a child. -/
theorem GetText_nothing_to_report (indent : String → String) (h : Heap) (p : FlowRef)
    (fl : Flow) (hp : h.deref p = some fl) :
    (fl.children = [] → ∀ n, Flow.GetText indent h (n + 1) p
      = some ("Flow " ++ fl.Name ++ ": (nothing to report)\n")) ∧
    (∀ n, Flow.GetText indent h n p = some ("Flow " ++ fl.Name ++ ": (nothing to report)\n") →
      fl.children = []) := by
  constructor
  · intro hnil n
    apply (GetText_flow_iff indent h n p fl hp _).mpr
    refine ⟨[], ?_, by simp [hnil]⟩
    rw [hnil]
    exact List.Forall₂.nil
  · intro n hn
    cases n with
    | zero => simp [Flow.GetText, GoError.GetText] at hn
    | succ n =>
      obtain ⟨ts, -, ht⟩ := (GetText_flow_iff indent h n p fl hp _).mp hn
      by_contra hne
      simp only [hne, if_false] at ht
      exact header_ne_nothing fl.Name (concatAll ts) ht.symm

/-- A flow that `NewDefault` has just made has nothing to report. -/
theorem GetText_nothing_to_report_witness :
    (defaultOptions.newRecord "login check").children = [] ∧
    (∀ n, Flow.GetText id (NewDefault [] "login check").1 (n + 1) 0
      = some ("Flow " ++ "login check" ++ ": (nothing to report)\n")) :=
  ⟨rfl, (GetText_nothing_to_report id (NewDefault [] "login check").1 0
    (defaultOptions.newRecord "login check") rfl).1 rfl⟩

/-! ## NewDebug, the growth of the lists and the flow made by Flow -/

/-- C16: `NewDebug("login check")` makes a flow whose options are those of
`NewDefault`: FlowCheckWriteStack is set and PrintStderrOnAbort is not, so
`Abort("system")` on it writes nothing to stderr, whatever `rwstrings.Indent`
is. -/
theorem NewDebug_does_not_print :
    NewDebug [] "login check" = NewDefault [] "login check" ∧
    (NewDebug [] "login check").1.deref 0 = some (defaultOptions.newRecord "login check") ∧
    (defaultOptions.newRecord "login check").options.FlowCheckWriteStack = true ∧
    (defaultOptions.newRecord "login check").options.PrintStderrOnAbort = false ∧
    ∀ (indent : String → String) (fuel : Nat),
      Flow.Abort indent (NewDebug [] "login check").1 fuel 0
          (defaultOptions.newRecord "login check") "system"
        = some (.labelled (.flow 0) "system" "login check" none, none) := by
  refine ⟨rfl, rfl, rfl, rfl, fun indent fuel => ?_⟩
  simp [Flow.Abort, defaultOptions, FlowOptions.newRecord, LabelledError.toError]

/-- C17: every call, on whatever flow, leaves the `children` and `errors` of an
allocated flow as initial segments of what they are afterwards, and so does
every sequence of calls; once `Done` returns a non-nil error on a flow it
returns one after every later sequence of calls; and `Done`, `Abort`, `Error`
and `GetText` change nothing in the heap. -/
theorem lists_only_grow (h : Heap) (q : FlowRef) (fl : Flow) (hq : h.deref q = some fl) :
    (∀ self op, ∃ fl1, (invoke h self op).deref q = some fl1 ∧
      (∃ t, fl1.children = fl.children ++ t) ∧ (∃ t, fl1.errors = fl.errors ++ t)) ∧
    (∀ calls, ∃ fl1, (run h calls).deref q = some fl1 ∧
      (∃ t, fl1.children = fl.children ++ t) ∧ (∃ t, fl1.errors = fl.errors ++ t)) ∧
    (∀ label, Flow.Done q fl label ≠ none → ∀ calls, ∃ fl1,
      (run h calls).deref q = some fl1 ∧ ∀ label1, Flow.Done q fl1 label1 ≠ none) ∧
    (∀ label, invoke h q (.Done label) = h ∧ invoke h q (.Abort label) = h) ∧
    invoke h q .Error = h ∧ invoke h q .GetText = h := by
  refine ⟨fun self op => ?_, fun calls => ?_, fun label hdone calls => ?_,
    fun label => ⟨by simp only [invoke, hq], by simp only [invoke, hq]⟩,
    by simp only [invoke, hq], by simp only [invoke, hq]⟩
  · obtain ⟨fl1, h1, -, -, he, hc⟩ := invoke_deref self op hq
    exact ⟨fl1, h1, hc, he⟩
  · obtain ⟨fl1, h1, -, -, he, hc⟩ := run_deref calls hq
    exact ⟨fl1, h1, hc, he⟩
  · obtain ⟨fl1, h1, -, -, ⟨t, he⟩, -⟩ := run_deref calls hq
    refine ⟨fl1, h1, fun label1 hnil => hdone ?_⟩
    have hempty := (Done_eq_none_iff q fl1 label1).mp hnil
    rw [he] at hempty
    exact (Done_eq_none_iff q fl label).mpr (List.append_eq_nil.mp hempty).1

/-- The lists of "database error" in `abortHeap` under further calls. -/
theorem lists_only_grow_witness :
    (∀ self op, ∃ fl1, (invoke abortHeap self op).deref 1 = some fl1 ∧
      (∃ t, fl1.children = abortRecord.children ++ t) ∧
      (∃ t, fl1.errors = abortRecord.errors ++ t)) ∧
    (∀ calls, ∃ fl1, (run abortHeap calls).deref 1 = some fl1 ∧
      (∃ t, fl1.children = abortRecord.children ++ t) ∧
      (∃ t, fl1.errors = abortRecord.errors ++ t)) ∧
    (∀ label, Flow.Done 1 abortRecord label ≠ none → ∀ calls, ∃ fl1,
      (run abortHeap calls).deref 1 = some fl1 ∧ ∀ label1, Flow.Done 1 fl1 label1 ≠ none) ∧
    (∀ label, invoke abortHeap 1 (.Done label) = abortHeap ∧
      invoke abortHeap 1 (.Abort label) = abortHeap) ∧
    invoke abortHeap 1 .Error = abortHeap ∧ invoke abortHeap 1 .GetText = abortHeap :=
  lists_only_grow abortHeap 1 abortRecord (by decide)

/-- C20: the flow `c` that `p.Flow(n)` returns is a new flow named `n` with the
options of `p`, `children = [p]`, `flows = [p]` and no errors and no notes; the
record of `p` is what it was before the call; `c.Error()` is
`"flow(" + n + "): {" + p.Error() + "}"`, one call deeper than `p.Error()`; and
whatever `c.GetText()` returns is not the text of a flow with nothing to
report. -/
theorem Flow_new_flow_holds_receiver (h : Heap) (p : FlowRef) (pfl : Flow) (n : String)
    (hp : h.deref p = some pfl) :
    ∃ cfl, (Flow.Flow h p pfl n).1.deref (Flow.Flow h p pfl n).2 = some cfl ∧
      cfl.Name = n ∧ cfl.options = pfl.options ∧
      cfl.children = [.error (.flow p)] ∧ cfl.flows = [p] ∧ cfl.errors = [] ∧ cfl.logs = [] ∧
      (Flow.Flow h p pfl n).2 ≠ p ∧
      (Flow.Flow h p pfl n).1.deref p = some pfl ∧
      (∀ k, Flow.Error (Flow.Flow h p pfl n).1 (k + 1) (Flow.Flow h p pfl n).2
        = (Flow.Error (Flow.Flow h p pfl n).1 k p).map
            (fun t => "flow(" ++ n ++ "): \x7b" ++ t ++ "\x7d")) ∧
      (∀ (indent : String → String) k t,
        Flow.GetText indent (Flow.Flow h p pfl n).1 k (Flow.Flow h p pfl n).2 = some t →
        t ≠ "Flow " ++ n ++ ": (nothing to report)\n") := by
  have hc := Flow_deref_new h p pfl n
  refine ⟨_, hc, rfl, rfl, rfl, rfl, rfl, rfl, ?_, Flow_deref_old p pfl n hp, ?_, ?_⟩
  · rw [Flow_eq]
    exact Nat.ne_of_gt (deref_lt hp)
  · intro k
    simp only [Flow.Error, GoError.Error, hc, FlowOptions.newRecord, Flow.addFlow, Flow.add,
      List.nil_append, collect, compactChild]
    cases GoError.Error (Flow.Flow h p pfl n).1 k (.flow p) with
    | none => rfl
    | some t => simp [String.intercalate, String.intercalate.go]
  · intro indent k t ht
    cases k with
    | zero => simp [Flow.GetText, GoError.GetText] at ht
    | succ k =>
      obtain ⟨ts, -, hts⟩ := (GetText_flow_iff indent _ k _ _ hc t).mp ht
      simp only [FlowOptions.newRecord, Flow.addFlow, Flow.add, List.nil_append,
        List.cons_ne_nil, if_false] at hts
      rw [hts]
      exact header_ne_nothing n (concatAll ts)

/-- The call `f1.Flow("bad input")` of `fakeLoginCheck`. -/
theorem Flow_new_flow_holds_receiver_witness :
    ∃ cfl, (Flow.Flow loginHeap 0 loginRecord "bad input").1.deref
        (Flow.Flow loginHeap 0 loginRecord "bad input").2 = some cfl ∧
      cfl.Name = "bad input" ∧ cfl.options = loginRecord.options ∧
      cfl.children = [.error (.flow 0)] ∧ cfl.flows = [0] ∧ cfl.errors = [] ∧ cfl.logs = [] ∧
      (Flow.Flow loginHeap 0 loginRecord "bad input").2 ≠ 0 ∧
      (Flow.Flow loginHeap 0 loginRecord "bad input").1.deref 0 = some loginRecord ∧
      (∀ k, Flow.Error (Flow.Flow loginHeap 0 loginRecord "bad input").1 (k + 1)
          (Flow.Flow loginHeap 0 loginRecord "bad input").2
        = (Flow.Error (Flow.Flow loginHeap 0 loginRecord "bad input").1 k 0).map
            (fun t => "flow(" ++ "bad input" ++ "): \x7b" ++ t ++ "\x7d")) ∧
      (∀ (indent : String → String) k t,
        Flow.GetText indent (Flow.Flow loginHeap 0 loginRecord "bad input").1 k
          (Flow.Flow loginHeap 0 loginRecord "bad input").2 = some t →
        t ≠ "Flow " ++ "bad input" ++ ": (nothing to report)\n") :=
  Flow_new_flow_holds_receiver loginHeap 0 loginRecord "bad input" rfl

/-! ## The lists of a flow -/

theorem Interleaved.append_error {cs : List Child} {es : List GoError} {fs : List FlowRef}
    {ls : List String} (e : GoError) (hi : Interleaved cs es fs ls) :
    Interleaved (cs ++ [.error e]) (es ++ [e]) fs ls := by
  induction hi with
  | nil => exact .error e .nil
  | error x _ ih => exact .error x ih
  | flow q _ ih => exact .flow q ih
  | note s _ ih => exact .note s ih

theorem Interleaved.append_flow {cs : List Child} {es : List GoError} {fs : List FlowRef}
    {ls : List String} (q : FlowRef) (hi : Interleaved cs es fs ls) :
    Interleaved (cs ++ [.error (.flow q)]) es (fs ++ [q]) ls := by
  induction hi with
  | nil => exact .flow q .nil
  | error x _ ih => exact .error x ih
  | flow r _ ih => exact .flow r ih
  | note s _ ih => exact .note s ih

theorem Interleaved.append_note {cs : List Child} {es : List GoError} {fs : List FlowRef}
    {ls : List String} (s : String) (hi : Interleaved cs es fs ls) :
    Interleaved (cs ++ [.note s]) es fs (ls ++ [s]) := by
  induction hi with
  | nil => exact .note s .nil
  | error x _ ih => exact .error x ih
  | flow r _ ih => exact .flow r ih
  | note t _ ih => exact .note t ih

theorem Interleaved.errors_sublist {cs : List Child} {es : List GoError} {fs : List FlowRef}
    {ls : List String} (hi : Interleaved cs es fs ls) :
    List.Sublist (es.map Child.error) cs := by
  induction hi with
  | nil => exact List.Sublist.slnil
  | error x _ ih => exact List.Sublist.cons₂ _ ih
  | flow q _ ih => exact List.Sublist.cons _ ih
  | note s _ ih => exact List.Sublist.cons _ ih

theorem Interleaved.length_eq {cs : List Child} {es : List GoError} {fs : List FlowRef}
    {ls : List String} (hi : Interleaved cs es fs ls) :
    cs.length = es.length + fs.length + ls.length := by
  induction hi with
  | nil => rfl
  | error x _ ih => simp only [List.length_cons, ih]; omega
  | flow q _ ih => simp only [List.length_cons, ih]; omega
  | note s _ ih => simp only [List.length_cons, ih]; omega

theorem Interleaved.flows_mem {cs : List Child} {es : List GoError} {fs : List FlowRef}
    {ls : List String} (hi : Interleaved cs es fs ls) :
    ∀ q ∈ fs, Child.error (.flow q) ∈ cs := by
  induction hi with
  | nil => intro q hq; cases hq
  | error x _ ih => exact fun q hq => List.mem_cons_of_mem _ (ih q hq)
  | flow r _ ih =>
    intro q hq
    rcases List.mem_cons.mp hq with heq | hmem
    · rw [heq]; exact List.mem_cons_self _ _
    · exact List.mem_cons_of_mem _ (ih q hmem)
  | note s _ ih => exact fun q hq => List.mem_cons_of_mem _ (ih q hq)

theorem Interleaved.logs_mem {cs : List Child} {es : List GoError} {fs : List FlowRef}
    {ls : List String} (hi : Interleaved cs es fs ls) :
    ∀ s ∈ ls, Child.note s ∈ cs := by
  induction hi with
  | nil => intro s hs; cases hs
  | error x _ ih => exact fun s hs => List.mem_cons_of_mem _ (ih s hs)
  | flow r _ ih => exact fun s hs => List.mem_cons_of_mem _ (ih s hs)
  | note t _ ih =>
    intro s hs
    rcases List.mem_cons.mp hs with heq | hmem
    · rw [heq]; exact List.mem_cons_self _ _
    · exact List.mem_cons_of_mem _ (ih s hmem)

/-- In a reachable heap the `children` of every flow interleave its `errors`,
`flows` and `logs`. -/
theorem interleaved_of_reachable {h : Heap} (hr : Reachable h) {p : FlowRef} {fl : Flow}
    (hp : h.deref p = some fl) : Interleaved fl.children fl.errors fl.flows fl.logs := by
  refine Reachable.record_induction
    (fun fl => Interleaved fl.children fl.errors fl.flows fl.logs) ?_ ?_ ?_ hr p fl hp
  · intro options name
    exact .nil
  · intro options name self
    exact .flow self .nil
  · intro op fl ih
    cases op with
    | Add err =>
      cases err with
      | none => exact ih
      | some x => exact ih.append_error x
    | Check err label stack =>
      cases err with
      | none => exact ih
      | some x => exact ih.append_error _
    | Must check message stack =>
      cases check with
      | true => exact ih
      | false => exact ih.append_error _
    | Log note => exact ih.append_note note
    | LogWithTime note now => exact ih.append_note _
    | Flow name => exact ih
    | Abort label => exact ih
    | Done label => exact ih
    | Error => exact ih
    | GetText => exact ih

theorem reachable_run {h : Heap} (hr : Reachable h) (calls : List (FlowRef × Op)) :
    Reachable (run h calls) := by
  induction calls generalizing h with
  | nil => exact hr
  | cons c rest ih => exact ih (.call h c.1 c.2 hr)

/-- In a reachable heap the `children` of a flow are its `flows`, of which there
is at most one, followed by its errors and notes in the order they were
recorded. -/
theorem flows_then_items {h : Heap} (hr : Reachable h) {p : FlowRef} {fl : Flow}
    (hp : h.deref p = some fl) :
    fl.flows.length ≤ 1 ∧
    ∃ rest, fl.children = fl.flows.map (fun q => Child.error (.flow q)) ++ rest ∧
      fl.errors = rest.filterMap Child.asError ∧ fl.logs = rest.filterMap Child.asNote := by
  refine Reachable.record_induction
    (fun fl => fl.flows.length ≤ 1 ∧
      ∃ rest, fl.children = fl.flows.map (fun q => Child.error (.flow q)) ++ rest ∧
        fl.errors = rest.filterMap Child.asError ∧ fl.logs = rest.filterMap Child.asNote)
    ?_ ?_ ?_ hr p fl hp
  · intro options name
    exact ⟨Nat.zero_le _, [], rfl, rfl, rfl⟩
  · intro options name self
    exact ⟨Nat.le_refl _, [], rfl, rfl, rfl⟩
  · intro op fl ih
    obtain ⟨hlen, rest, hc, he, hl⟩ := ih
    have herr : ∀ x : GoError,
        fl.children ++ [Child.error x]
            = fl.flows.map (fun q => Child.error (.flow q)) ++ (rest ++ [Child.error x]) ∧
          fl.errors ++ [x] = (rest ++ [Child.error x]).filterMap Child.asError ∧
          fl.logs = (rest ++ [Child.error x]).filterMap Child.asNote := by
      intro x
      refine ⟨by rw [hc, List.append_assoc], ?_, ?_⟩
      · rw [List.filterMap_append, ← he]; rfl
      · rw [List.filterMap_append, ← hl]; simp [Child.asNote]
    have hnote : ∀ x : String,
        fl.children ++ [Child.note x]
            = fl.flows.map (fun q => Child.error (.flow q)) ++ (rest ++ [Child.note x]) ∧
          fl.errors = (rest ++ [Child.note x]).filterMap Child.asError ∧
          fl.logs ++ [x] = (rest ++ [Child.note x]).filterMap Child.asNote := by
      intro x
      refine ⟨by rw [hc, List.append_assoc], ?_, ?_⟩
      · rw [List.filterMap_append, ← he]; simp [Child.asError]
      · rw [List.filterMap_append, ← hl]; rfl
    cases op with
    | Add err =>
      cases err with
      | none => exact ⟨hlen, rest, hc, he, hl⟩
      | some x => exact ⟨hlen, _, herr x⟩
    | Check err label stack =>
      cases err with
      | none => exact ⟨hlen, rest, hc, he, hl⟩
      | some x => exact ⟨hlen, _, herr _⟩
    | Must check message stack =>
      cases check with
      | true => exact ⟨hlen, rest, hc, he, hl⟩
      | false => exact ⟨hlen, _, herr _⟩
    | Log note => exact ⟨hlen, _, hnote note⟩
    | LogWithTime note now => exact ⟨hlen, _, hnote _⟩
    | Flow name => exact ⟨hlen, rest, hc, he, hl⟩
    | Abort label => exact ⟨hlen, rest, hc, he, hl⟩
    | Done label => exact ⟨hlen, rest, hc, he, hl⟩
    | Error => exact ⟨hlen, rest, hc, he, hl⟩
    | GetText => exact ⟨hlen, rest, hc, he, hl⟩

/-- What a call appends to the lists of its receiver: the error it records to
`errors`, the note it records to `logs`, both to `children`, nothing to
`flows`. -/
theorem effect_recorded (op : Op) (fl : Flow) :
    (op.effect fl).errors = fl.errors ++ (op.recordedError fl).toList ∧
    (op.effect fl).logs = fl.logs ++ op.recordedNote.toList ∧
    (op.effect fl).flows = fl.flows ∧
    (op.effect fl).children = fl.children ++
      (((op.recordedError fl).map Child.error).toList ++
        (op.recordedNote.map Child.note).toList) := by
  cases op with
  | Add err =>
    cases err <;>
      simp [Op.effect, Op.recordedError, Op.recordedNote, Flow.Add, Flow.addError, Flow.add]
  | Check err label stack =>
    cases err with
    | none => simp [Op.effect, Op.recordedError, Op.recordedNote, Flow.Check]
    | some e =>
      cases hopt : fl.options.FlowCheckWriteStack <;>
        simp [Op.effect, Op.recordedError, Op.recordedNote, Flow.Check, Flow.addError, Flow.add,
          LabelledError.toError, hopt]
  | Must check message stack =>
    cases check with
    | true => simp [Op.effect, Op.recordedError, Op.recordedNote, Flow.Must]
    | false =>
      cases hopt : fl.options.FlowCheckWriteStack <;>
        simp [Op.effect, Op.recordedError, Op.recordedNote, Flow.Must, Flow.Check,
          Flow.addError, Flow.add, LabelledError.toError, hopt]
  | Log note =>
    simp [Op.effect, Op.recordedError, Op.recordedNote, Flow.Log, Flow.addLog, Flow.add]
  | LogWithTime note now =>
    simp [Op.effect, Op.recordedError, Op.recordedNote, Flow.LogWithTime, Flow.Log,
      Flow.addLog, Flow.add]
  | Flow name => simp [Op.effect, Op.recordedError, Op.recordedNote]
  | Abort label => simp [Op.effect, Op.recordedError, Op.recordedNote]
  | Done label => simp [Op.effect, Op.recordedError, Op.recordedNote]
  | Error => simp [Op.effect, Op.recordedError, Op.recordedNote]
  | GetText => simp [Op.effect, Op.recordedError, Op.recordedNote]

/-- The only call that records a bare flow as an error is `Add` with that flow. -/
theorem recordedError_flow (op : Op) (fl : Flow) (q : FlowRef)
    (hq : op.recordedError fl = some (.flow q)) : op = .Add (some (.flow q)) := by
  cases op with
  | Add err => simp only [Op.recordedError] at hq; rw [hq]
  | Check err label stack =>
    cases err with
    | none => simp [Op.recordedError] at hq
    | some e => simp [Op.recordedError] at hq
  | Must check message stack =>
    cases check with
    | true => simp [Op.recordedError] at hq
    | false => simp [Op.recordedError] at hq
  | Log note => simp [Op.recordedError] at hq
  | LogWithTime note now => simp [Op.recordedError] at hq
  | Flow name => simp [Op.recordedError] at hq
  | Abort label => simp [Op.recordedError] at hq
  | Done label => simp [Op.recordedError] at hq
  | Error => simp [Op.recordedError] at hq
  | GetText => simp [Op.recordedError] at hq

/-- C18 (amended): in every heap reachable from `FlowOptions.New` through the
public methods, the `children` of a flow are its `flows` (at most one, the flow
it was spawned from) followed by its error items and notes in the order they
were recorded; `errors` is exactly the subsequence of those later children that
are errors, `logs` the subsequence that are notes; the notes and the nested
flow are in `children`, no note is in `errors`, and
`len(children) = len(errors) + len(flows) + len(logs)`.  Each call appends
to `errors` the error it records and nothing else (`Add` the raw error, `Check`
and `Must` one LabelledError, every other call nothing) and appends nothing to
`flows`; the flow that `Flow(name)` makes starts with the receiver in `flows`
and `children` and with no errors.  Hence a flow is in `errors` as an item only
after it was passed to `Add`. -/
theorem errors_are_error_items (h : Heap) (hr : Reachable h) (p : FlowRef) (fl : Flow)
    (hp : h.deref p = some fl) :
    (fl.flows.length ≤ 1 ∧
      ∃ rest, fl.children = fl.flows.map (fun q => Child.error (.flow q)) ++ rest ∧
        fl.errors = rest.filterMap Child.asError ∧ fl.logs = rest.filterMap Child.asNote) ∧
    Interleaved fl.children fl.errors fl.flows fl.logs ∧
    List.Sublist (fl.errors.map Child.error) fl.children ∧
    (∀ s ∈ fl.logs, Child.note s ∈ fl.children) ∧
    (∀ q ∈ fl.flows, Child.error (.flow q) ∈ fl.children) ∧
    (∀ s, Child.note s ∉ fl.errors.map Child.error) ∧
    fl.children.length = fl.errors.length + fl.flows.length + fl.logs.length ∧
    (∀ op, ∃ fl1, (invoke h p op).deref p = some fl1 ∧
      fl1.errors = fl.errors ++ (op.recordedError fl).toList ∧
      fl1.logs = fl.logs ++ op.recordedNote.toList ∧
      fl1.flows = fl.flows ∧
      fl1.children = fl.children ++
        (((op.recordedError fl).map Child.error).toList ++
          (op.recordedNote.map Child.note).toList) ∧
      ∀ q, GoError.flow q ∈ fl1.errors →
        GoError.flow q ∈ fl.errors ∨ op = .Add (some (.flow q))) ∧
    (∀ name, ∃ cfl,
      (Flow.Flow h p fl name).1.deref (Flow.Flow h p fl name).2 = some cfl ∧
      cfl.flows = [p] ∧ cfl.children = [.error (.flow p)] ∧ cfl.errors = [] ∧ cfl.logs = []) ∧
    (∀ options name, ∃ nfl,
      (FlowOptions.New options h name).1.deref (FlowOptions.New options h name).2 = some nfl ∧
      nfl.flows = [] ∧ nfl.children = [] ∧ nfl.errors = [] ∧ nfl.logs = []) := by
  have hi := interleaved_of_reachable hr hp
  refine ⟨flows_then_items hr hp, hi, hi.errors_sublist, hi.logs_mem, hi.flows_mem,
    fun s hs => ?_, hi.length_eq,
    fun op => ?_, fun name => ⟨_, Flow_deref_new h p fl name, rfl, rfl, rfl, rfl⟩,
    fun options name => ⟨_, deref_alloc_new h _, rfl, rfl, rfl, rfl⟩⟩
  · obtain ⟨e, -, he⟩ := List.mem_map.mp hs
    cases he
  · obtain ⟨he, hl, hf, hc⟩ := effect_recorded op fl
    refine ⟨op.effect fl, invoke_self op hp, he, hl, hf, hc, fun q hq => ?_⟩
    rw [he] at hq
    rcases List.mem_append.mp hq with hold | hnew
    · exact Or.inl hold
    · right
      apply recordedError_flow op fl q
      cases hrec : op.recordedError fl with
      | none => rw [hrec] at hnew; cases hnew
      | some x =>
        rw [hrec] at hnew
        have hx : GoError.flow q = x := by simpa using hnew
        rw [hx]

/-- The lists of "database error" in `abortHeap`: the flow it was spawned from,
then a note, a labelled error and a note. -/
theorem errors_are_error_items_witness :
    (abortRecord.flows.length ≤ 1 ∧
      ∃ rest, abortRecord.children
          = abortRecord.flows.map (fun q => Child.error (.flow q)) ++ rest ∧
        abortRecord.errors = rest.filterMap Child.asError ∧
        abortRecord.logs = rest.filterMap Child.asNote) ∧
    List.Sublist (abortRecord.errors.map Child.error) abortRecord.children ∧
    abortRecord.children.length
      = abortRecord.errors.length + abortRecord.flows.length + abortRecord.logs.length ∧
    (∃ cfl, (Flow.Flow abortHeap 1 abortRecord "deeper").1.deref
        (Flow.Flow abortHeap 1 abortRecord "deeper").2 = some cfl ∧
      cfl.flows = [1] ∧ cfl.children = [.error (.flow 1)] ∧ cfl.errors = [] ∧ cfl.logs = []) := by
  have hall := errors_are_error_items abortHeap
    (reachable_run (.new _ _ _ .empty) _) 1 abortRecord (by decide)
  exact ⟨hall.1, hall.2.2.1, hall.2.2.2.2.2.2.1, hall.2.2.2.2.2.2.2.2.1 "deeper"⟩

/-- C18 (as stated, refuted): the heap after `p := NewDefault("login check");
c := p.Flow("database error"); c.Add(p)` is reachable, and in it the nested flow
`p` of `c`, which is in `c.flows` and in `c.children`, is in `c.errors` as
well. -/
theorem errors_are_error_items_counterexample :
    Reachable parentAddedHeap ∧
    ∃ cfl, parentAddedHeap.deref 1 = some cfl ∧
      cfl.children = [.error (.flow 0), .error (.flow 0)] ∧
      cfl.flows = [0] ∧ cfl.errors = [.flow 0] ∧
      (0 : FlowRef) ∈ cfl.flows ∧ GoError.flow 0 ∈ cfl.errors :=
  ⟨.call _ _ _ (.call _ _ _ (.new _ _ _ .empty)),
    { Name := "database error", options := defaultOptions,
      children := [.error (.flow 0), .error (.flow 0)], errors := [.flow 0],
      flows := [0], logs := [] },
    by decide, rfl, rfl, rfl, by decide, by decide⟩

/-! ## Rendering on flows that reach themselves -/

/-- When `Error()` returns on an error value, it returns on the flow the value
points to, within the same depth. -/
theorem Error_of_target (h : Heap) (n : Nat) :
    ∀ e s q, GoError.Error h n e = some s → e.target = some q →
      ∃ s1, GoError.Error h n (.flow q) = some s1 := by
  induction n with
  | zero => intro e s q hs; simp [GoError.Error] at hs
  | succ n ih =>
    intro e s q hs ht
    cases e with
    | ext msg text => simp [GoError.target] at ht
    | labelled err label fname trace =>
      simp only [GoError.target] at ht
      rw [Error_labelled] at hs
      cases hin : GoError.Error h n err with
      | none => simp [hin] at hs
      | some t =>
        obtain ⟨s1, hs1⟩ := ih err t q hin ht
        exact ⟨s1, Error_mono_succ h n _ _ hs1⟩
    | flow p =>
      simp only [GoError.target, Option.some.injEq] at ht
      subst ht
      exact ⟨s, hs⟩

theorem target_hasGetText {e : GoError} {q : FlowRef} (ht : e.target = some q) :
    e.hasGetText = true := by
  cases e with
  | ext msg text => simp [GoError.target] at ht
  | labelled err label fname trace => rfl
  | flow p => rfl

/-- When `GetText()` returns on an error value, it returns on the flow the value
points to, within the same depth. -/
theorem GetText_of_target (indent : String → String) (h : Heap) (n : Nat) :
    ∀ e s q, GoError.GetText indent h n e = some s → e.target = some q →
      ∃ s1, GoError.GetText indent h n (.flow q) = some s1 := by
  induction n with
  | zero => intro e s q hs; simp [GoError.GetText] at hs
  | succ n ih =>
    intro e s q hs ht
    cases e with
    | ext msg text => simp [GoError.target] at ht
    | labelled err label fname trace =>
      simp only [GoError.target] at ht
      simp only [GoError.GetText, target_hasGetText ht, if_true] at hs
      cases hin : GoError.GetText indent h n err with
      | none => simp [hin] at hs
      | some t =>
        obtain ⟨s1, hs1⟩ := ih err t q hin ht
        exact ⟨s1, GetText_mono_succ indent h n _ _ hs1⟩
    | flow p =>
      simp only [GoError.target, Option.some.injEq] at ht
      subst ht
      exact ⟨s, hs⟩

/-- A flow on which `Error()` returns has children on which it returned. -/
theorem Error_flow_child {h : Heap} {n : Nat} {p : FlowRef} {fl : Flow} {s : String}
    (hp : h.deref p = some fl) (hs : GoError.Error h (n + 1) (.flow p) = some s) :
    ∀ e, Child.error e ∈ fl.children → ∃ s1, GoError.Error h n e = some s1 := by
  simp only [GoError.Error, hp] at hs
  cases he : collect (GoError.Error h n) fl.errors with
  | none => simp [he] at hs
  | some es =>
    cases hc : collect (compactChild (GoError.Error h n)) fl.children with
    | none => simp [he, hc] at hs
    | some cs => exact fun e hmem => collect_mem hc (.error e) hmem

/-- A flow on which `GetText()` returns has children on which it returned. -/
theorem GetText_flow_child {indent : String → String} {h : Heap} {n : Nat} {p : FlowRef}
    {fl : Flow} {s : String} (hp : h.deref p = some fl)
    (hs : GoError.GetText indent h (n + 1) (.flow p) = some s) :
    ∀ e, Child.error e ∈ fl.children → e.hasGetText = true →
      ∃ s1, GoError.GetText indent h n e = some s1 := by
  simp only [GoError.GetText, hp] at hs
  cases hc : collect (textChild indent (GoError.GetText indent h n) (GoError.Error h n))
      fl.children with
  | none => simp [hc] at hs
  | some cs =>
    intro e hmem hg
    obtain ⟨s1, hs1⟩ := collect_mem hc (.error e) hmem
    simp only [textChild, hg, if_true] at hs1
    cases hin : GoError.GetText indent h n e with
    | none => simp [hin] at hs1
    | some t => exact ⟨t, rfl⟩

/-- Two flows that hold each other (or one flow that holds itself): neither
`Error()` nor `GetText()` returns on them at any depth. -/
theorem no_text_of_cycle (h : Heap) (p q : FlowRef) (pfl qfl : Flow)
    (hp : h.deref p = some pfl) (hq : h.deref q = some qfl)
    (e1 : GoError) (he1 : Child.error e1 ∈ pfl.children) (ht1 : e1.target = some q)
    (e2 : GoError) (he2 : Child.error e2 ∈ qfl.children) (ht2 : e2.target = some p) :
    (∀ n, GoError.Error h n (.flow p) = none) ∧
    (∀ (indent : String → String) n, GoError.GetText indent h n (.flow p) = none) := by
  have herr : ∀ n, GoError.Error h n (.flow p) = none ∧ GoError.Error h n (.flow q) = none := by
    intro n
    induction n with
    | zero => exact ⟨rfl, rfl⟩
    | succ n ih =>
      constructor
      · cases hs : GoError.Error h (n + 1) (.flow p) with
        | none => rfl
        | some s =>
          obtain ⟨s1, hs1⟩ := Error_flow_child hp hs e1 he1
          obtain ⟨s2, hs2⟩ := Error_of_target h n e1 s1 q hs1 ht1
          rw [ih.2] at hs2
          cases hs2
      · cases hs : GoError.Error h (n + 1) (.flow q) with
        | none => rfl
        | some s =>
          obtain ⟨s1, hs1⟩ := Error_flow_child hq hs e2 he2
          obtain ⟨s2, hs2⟩ := Error_of_target h n e2 s1 p hs1 ht2
          rw [ih.1] at hs2
          cases hs2
  have htext : ∀ (indent : String → String) n, GoError.GetText indent h n (.flow p) = none ∧
      GoError.GetText indent h n (.flow q) = none := by
    intro indent n
    induction n with
    | zero => exact ⟨rfl, rfl⟩
    | succ n ih =>
      constructor
      · cases hs : GoError.GetText indent h (n + 1) (.flow p) with
        | none => rfl
        | some s =>
          obtain ⟨s1, hs1⟩ := GetText_flow_child hp hs e1 he1 (target_hasGetText ht1)
          obtain ⟨s2, hs2⟩ := GetText_of_target indent h n e1 s1 q hs1 ht1
          rw [ih.2] at hs2
          cases hs2
      · cases hs : GoError.GetText indent h (n + 1) (.flow q) with
        | none => rfl
        | some s =>
          obtain ⟨s1, hs1⟩ := GetText_flow_child hq hs e2 he2 (target_hasGetText ht2)
          obtain ⟨s2, hs2⟩ := GetText_of_target indent h n e2 s1 p hs1 ht2
          rw [ih.1] at hs2
          cases hs2
  exact ⟨fun n => (herr n).1, fun indent n => (htext indent n).1⟩

/-- C19 (amended): on every flow that belongs to a set of flows none of which
reaches itself through the errors and flows stored in them, `Error()` and
`GetText()` terminate: each returns one string at every sufficient depth. -/
theorem rendering_returns_of_acyclic (h : Heap) (rank : FlowRef → Nat) (S : List FlowRef)
    (hac : h.acyclicOn rank S = true) (p : FlowRef) (hp : p ∈ S) :
    (∃ n s, ∀ m, n ≤ m → Flow.Error h m p = some s) ∧
    (∀ indent : String → String, ∃ n t, ∀ m, n ≤ m → Flow.GetText indent h m p = some t) := by
  constructor
  · obtain ⟨n, s, hs⟩ := Error_returns_of_acyclic hac hp
    exact ⟨n, s, fun m hm => Error_mono h n m _ s hm hs⟩
  · intro indent
    obtain ⟨n, t, ht⟩ := GetText_returns_of_acyclic indent hac hp
    exact ⟨n, t, fun m hm => GetText_mono indent h n m _ t hm ht⟩

/-- The child "database error" of `childErrorHeap`, which holds its parent and
an error, renders: nothing has been folded back. -/
theorem rendering_returns_of_acyclic_witness :
    (∃ n s, ∀ m, n ≤ m → Flow.Error childErrorHeap m 1 = some s) ∧
    (∀ indent : String → String,
      ∃ n t, ∀ m, n ≤ m → Flow.GetText indent childErrorHeap m 1 = some t) :=
  rendering_returns_of_acyclic childErrorHeap (fun p => p) [0, 1] (by decide) 1 (by decide)

/-- C19 (as stated, refuted): the heap after `p := NewDefault("login check");
p.Add(p)` is reachable through the public methods (a flow is an `error`, and
`Add` takes any), the flow holds itself, and neither `p.Error()` nor
`p.GetText()` returns at any depth, whatever `rwstrings.Indent` is. -/
theorem rendering_returns_counterexample :
    Reachable selfHeap ∧
    selfHeap.deref 0 = some
      { Name := "login check", options := defaultOptions, children := [.error (.flow 0)],
        errors := [.flow 0], flows := [], logs := [] } ∧
    (∀ n, Flow.Error selfHeap n 0 = none) ∧
    ∀ (indent : String → String) n, Flow.GetText indent selfHeap n 0 = none := by
  have hd : selfHeap.deref 0 = some
      { Name := "login check", options := defaultOptions, children := [.error (.flow 0)],
        errors := [.flow 0], flows := [], logs := [] } := by decide
  exact ⟨.call _ _ _ (.new _ _ _ .empty), hd,
    no_text_of_cycle selfHeap 0 0 _ _ hd hd (.flow 0) (by decide) rfl (.flow 0) (by decide) rfl⟩

/-- The fold-backs: after `c := p.Flow("database error"); c.Add(err)` each of
`p.Add(c.Done("bad login"))`, `p.Check(c.Done("bad login"), "login")` and
`p.Add(c.Abort("system"))` leaves a reachable heap in which `p` holds `c` and `c`,
made by `Flow`, holds `p`, and neither `p.Error()` nor `p.GetText()` returns at
any depth. -/
theorem fold_back_never_renders :
    (Reachable foldAddDoneHeap ∧ (∀ n, Flow.Error foldAddDoneHeap n 0 = none) ∧
      ∀ (indent : String → String) n, Flow.GetText indent foldAddDoneHeap n 0 = none) ∧
    (Reachable foldCheckDoneHeap ∧ (∀ n, Flow.Error foldCheckDoneHeap n 0 = none) ∧
      ∀ (indent : String → String) n, Flow.GetText indent foldCheckDoneHeap n 0 = none) ∧
    (Reachable foldAddAbortHeap ∧ (∀ n, Flow.Error foldAddAbortHeap n 0 = none) ∧
      ∀ (indent : String → String) n, Flow.GetText indent foldAddAbortHeap n 0 = none) := by
  have hbase : Reachable childErrorHeap := reachable_run (.new _ _ _ .empty) _
  refine ⟨⟨.call _ _ _ hbase, ?_⟩, ⟨.call _ _ _ hbase, ?_⟩, ⟨.call _ _ _ hbase, ?_⟩⟩
  · exact no_text_of_cycle foldAddDoneHeap 0 1
      { Name := "login check", options := defaultOptions,
        children := [.error (.labelled (.flow 1) "bad login" "database error" none)],
        errors := [.labelled (.flow 1) "bad login" "database error" none],
        flows := [], logs := [] }
      childErrorRecord (by decide) (by decide)
      (.labelled (.flow 1) "bad login" "database error" none) (by decide) rfl
      (.flow 0) (by decide) rfl
  · exact no_text_of_cycle foldCheckDoneHeap 0 1
      { Name := "login check", options := defaultOptions,
        children := [.error (.labelled (.labelled (.flow 1) "bad login" "database error" none)
          "login" "login check" (some "stack"))],
        errors := [.labelled (.labelled (.flow 1) "bad login" "database error" none)
          "login" "login check" (some "stack")],
        flows := [], logs := [] }
      childErrorRecord (by decide) (by decide)
      (.labelled (.labelled (.flow 1) "bad login" "database error" none)
        "login" "login check" (some "stack")) (by decide) rfl
      (.flow 0) (by decide) rfl
  · exact no_text_of_cycle foldAddAbortHeap 0 1
      { Name := "login check", options := defaultOptions,
        children := [.error (.labelled (.flow 1) "system" "database error" none)],
        errors := [.labelled (.flow 1) "system" "database error" none],
        flows := [], logs := [] }
      childErrorRecord (by decide) (by decide)
      (.labelled (.flow 1) "system" "database error" none) (by decide) rfl
      (.flow 0) (by decide) rfl

/-! ## Texts within texts -/

theorem Contains.trans {a b c : String} (hab : Contains a b) (hbc : Contains b c) :
    Contains a c := by
  obtain ⟨s, t, hst⟩ := hab
  obtain ⟨u, v, huv⟩ := hbc
  exact ⟨s ++ u, v ++ t, by simp [← hst, ← huv]⟩

theorem contains_refl (a : String) : Contains a a :=
  ⟨[], [], by simp⟩

theorem contains_append_right {a part : String} (b : String) (ha : Contains a part) :
    Contains (a ++ b) part := by
  obtain ⟨s, t, hst⟩ := ha
  exact ⟨s, t ++ b.data, by simp [String.data_append, ← hst]⟩

theorem contains_concatAll {ss : List String} {s : String} (hs : s ∈ ss) :
    Contains (concatAll ss) s := by
  induction ss with
  | nil => cases hs
  | cons a as ih =>
    rcases List.mem_cons.mp hs with heq | hmem
    · rw [heq]; exact contains_left _ _
    · exact contains_append_left a (ih hmem)

theorem tabIndent_data_append (a b : List Char) :
    (tabIndent ⟨a ++ b⟩).data = (tabIndent ⟨a⟩).data ++ (tabIndent ⟨b⟩).data := by
  simp [tabIndent]

theorem tabIndent_line (line : List Char) (hline : '\n' ∉ line) :
    (tabIndent ⟨line⟩).data = line := by
  induction line with
  | nil => rfl
  | cons ch rest ih =>
    have hch : ch ≠ '\n' := fun heq => hline (heq ▸ List.mem_cons_self _ _)
    have hrest : '\n' ∉ rest := fun hmem => hline (List.mem_cons_of_mem _ hmem)
    have ih1 := ih hrest
    simp only [tabIndent] at ih1 ⊢
    simp [List.flatMap_cons, hch, ih1]

/-- The function `tabIndent` has the contract `IndentsLines`. -/
theorem tabIndent_indentsLines : IndentsLines tabIndent := by
  intro s line _ hline hs
  obtain ⟨a, b, hab⟩ := hs
  refine ⟨(tabIndent ⟨a⟩).data, (tabIndent ⟨b⟩).data, ?_⟩
  have hs1 : s = ⟨a ++ ('\n' :: line.data) ++ b⟩ := by
    apply String.ext
    rw [← hab]
    simp [String.data_append]
  have hnl : "\n".data = ['\n'] := rfl
  have hnt : "\n\t".data = ['\n', '\t'] := rfl
  rw [hs1]
  simp only [String.data_append, hnt]
  rw [tabIndent_data_append, tabIndent_data_append]
  have hl : (tabIndent ⟨'\n' :: line.data⟩).data = '\n' :: '\t' :: line.data := by
    have h1 := tabIndent_data_append ['\n'] line.data
    simp only [List.singleton_append] at h1
    rw [h1, tabIndent_line line.data hline]
    rfl
  rw [hl]
  simp

/-- The function `tabIndent` has the contract `KeepsFirstLine`. -/
theorem tabIndent_keepsFirstLine : KeepsFirstLine tabIndent := by
  intro a b ha
  refine ⟨"\t" ++ tabIndent b, ?_⟩
  apply String.ext
  have hnl : "\n".data = ['\n'] := rfl
  have ht : "\t".data = ['\t'] := rfl
  have h1 : (a ++ "\n" ++ b) = ⟨a.data ++ (['\n'] ++ b.data)⟩ := by
    apply String.ext
    simp [String.data_append, hnl]
  rw [h1, tabIndent_data_append, tabIndent_data_append, tabIndent_line a.data ha]
  simp only [String.data_append, hnl, ht]
  have h2 : (tabIndent ⟨['\n']⟩).data = ['\n', '\t'] := rfl
  rw [h2]
  simp [tabIndent]

/-! ## Nested flows in the human-readable form -/

theorem forall2_mem {α β : Type} {R : α → β → Prop} {l : List α} {ts : List β}
    (hf : List.Forall₂ R l ts) {a : α} (ha : a ∈ l) : ∃ s ∈ ts, R a s := by
  induction hf with
  | nil => cases ha
  | cons hr _ ih =>
    rcases List.mem_cons.mp ha with heq | hmem
    · exact ⟨_, List.mem_cons_self _ _, heq ▸ hr⟩
    · obtain ⟨s, hs, hrs⟩ := ih hmem
      exact ⟨s, List.mem_cons_of_mem _ hs, hrs⟩

/-- The human-readable text of a flow with a child: the header, then the
bullets, that of the child among them. -/
theorem GetText_flow_bullets {indent : String → String} {h : Heap} {n : Nat} {p : FlowRef}
    {fl : Flow} {t : String} (hp : h.deref p = some fl)
    (ht : GoError.GetText indent h (n + 1) (.flow p) = some t) {c : Child}
    (hc : c ∈ fl.children) :
    ∃ ts, List.Forall₂ (rendersText indent h n) fl.children ts ∧
      t = "Flow " ++ fl.Name ++ ":\n" ++ concatAll ts ∧
      ∃ s ∈ ts, rendersText indent h n c s := by
  obtain ⟨ts, hts, hform⟩ := (GetText_flow_iff indent h n p fl hp t).mp ht
  have hne : fl.children ≠ [] := List.ne_nil_of_mem hc
  simp only [hne, if_false] at hform
  exact ⟨ts, hts, hform, forall2_mem hts hc⟩

theorem ends_newline_of_plain {indent : String → String} {h : Heap} {n : Nat} {x : Child}
    {b : String} (hx : x.plain = true) (hb : rendersText indent h n x b) :
    ∃ r, b = r ++ "\n" := by
  cases x with
  | note y => exact ⟨"\t- log: " ++ y, hb⟩
  | error e =>
    have hg : e.hasGetText = false := by simpa [Child.plain] using hx
    simp only [rendersText, hg] at hb
    rcases hb with ⟨hcontra, -⟩ | ⟨-, m, -, hm⟩
    · cases hcontra
    · exact ⟨"\t- error: " ++ indent m, hm⟩

/-- A note bullet that follows a header and only bullets that end a line starts
a line of the text. -/
theorem note_starts_line {indent : String → String} {h : Heap} {n : Nat} (text : String)
    (post : List Child) :
    ∀ (pre : List Child) (ts : List String) (hd : String),
      List.Forall₂ (rendersText indent h n) (pre ++ Child.note text :: post) ts →
      (∀ x ∈ pre, x.plain = true) → (∃ r, hd = r ++ "\n") →
      Contains (hd ++ concatAll ts) ("\n" ++ ("\t- log: " ++ text)) := by
  intro pre
  induction pre with
  | nil =>
    intro ts hd hf _ hhd
    obtain ⟨r, hr⟩ := hhd
    cases hf with
    | cons hnote hrest =>
      rename_i b rest
      simp only [rendersText] at hnote
      have heq : hd ++ concatAll (b :: rest)
          = r ++ (("\n" ++ ("\t- log: " ++ text)) ++ ("\n" ++ concatAll rest)) := by
        rw [hnote, hr]
        simp only [concatAll, String.append_assoc]
      rw [heq]
      exact contains_append_left r (contains_left _ _)
  | cons x pre ih =>
    intro ts hd hf hplain hhd
    cases hf with
    | cons hx hrest =>
      rename_i b rest
      obtain ⟨r, hr⟩ := ends_newline_of_plain (hplain x (List.mem_cons_self _ _)) hx
      have hstep := ih rest (hd ++ b) hrest
        (fun y hy => hplain y (List.mem_cons_of_mem _ hy))
        ⟨hd ++ r, by rw [hr, String.append_assoc]⟩
      simp only [concatAll]
      rw [← String.append_assoc]
      exact hstep

theorem concatAll_append (l1 l2 : List String) :
    concatAll (l1 ++ l2) = concatAll l1 ++ concatAll l2 := by
  induction l1 with
  | nil => simp [concatAll]
  | cons a as ih =>
    show a ++ concatAll (as ++ l2) = (a ++ concatAll as) ++ concatAll l2
    rw [ih, String.append_assoc]

/-- A text with a newline ends in a newline followed by text without one. -/
theorem last_newline (l : List Char) (hl : '\n' ∈ l) :
    ∃ a x, l = a ++ '\n' :: x ∧ '\n' ∉ x := by
  induction l with
  | nil => cases hl
  | cons ch rest ih =>
    by_cases hrest : '\n' ∈ rest
    · obtain ⟨a, x, hax, hx⟩ := ih hrest
      exact ⟨ch :: a, x, by rw [hax]; rfl, hx⟩
    · rcases List.mem_cons.mp hl with heq | hmem
      · exact ⟨[], rest, by rw [← heq]; rfl, hrest⟩
      · exact absurd hmem hrest

/-- The bullet of a note stands on a line of the text: behind a newline and
some text without a newline. -/
theorem note_line (hd : String) (hhd : '\n' ∈ hd.data) (ts : List String) (text : String)
    (hs : "\t- log: " ++ text ++ "\n" ∈ ts) :
    ∃ lead : String, '\n' ∉ lead.data ∧
      Contains (hd ++ concatAll ts) ("\n" ++ (lead ++ ("\t- log: " ++ text))) := by
  obtain ⟨l1, l2, hsplit⟩ := List.append_of_mem hs
  have hin : '\n' ∈ (hd ++ concatAll l1).data := by
    rw [String.data_append]
    exact List.mem_append_left _ hhd
  obtain ⟨a, x, hax, hx⟩ := last_newline _ hin
  refine ⟨⟨x⟩, hx, a, ("\n" ++ concatAll l2).data, ?_⟩
  have hnl : "\n".data = ['\n'] := rfl
  have hfull : (hd ++ concatAll ts).data
      = (hd ++ concatAll l1).data ++ (("\t- log: " ++ text ++ "\n") ++ concatAll l2).data := by
    rw [hsplit, concatAll_append]
    simp only [concatAll, String.data_append, List.append_assoc]
  rw [hfull, hax]
  simp only [String.data_append, hnl, List.append_assoc, List.cons_append, List.nil_append,
    List.singleton_append]

/-- C14 (amended): let `G` belong to a set of flows none of which reaches itself,
let the children of `G` contain a flow `C` and the children of `C` a note.  Then
`G.GetText()` and `C.GetText()` return, the text of `C` contains the bullet
`"\t- log: " + text + "\n"` of the note, and the text of `G` contains `"\t- "`
followed by `Indent` of the text of `C`: each nesting level wraps the nested
text in one more `Indent`.  For an `Indent` that puts one tab behind the newline
in front of every non-empty line, every non-empty line of the text of `C` is in
the text of `G` with one more tab; so is the line that carries the bullet of a
one-line note; and when the note follows only notes and plain errors in `C`, so
that its bullet starts that line, the text of `G` shows it behind two tabs. -/
theorem nested_note_indented (indent : String → String) (h : Heap) (rank : FlowRef → Nat)
    (S : List FlowRef) (hac : h.acyclicOn rank S = true) (g c : FlowRef) (gfl cfl : Flow)
    (text : String) (hgS : g ∈ S) (hg : h.deref g = some gfl) (hc : h.deref c = some cfl)
    (hchild : Child.error (.flow c) ∈ gfl.children) (hnote : Child.note text ∈ cfl.children) :
    ∃ n t tc,
      (∀ m, n ≤ m → Flow.GetText indent h (m + 1) g = some t ∧
        Flow.GetText indent h m c = some tc) ∧
      Contains tc ("\t- log: " ++ text ++ "\n") ∧
      Contains t ("\t- " ++ indent tc) ∧
      (IndentsLines indent →
        (∀ line : String, line ≠ "" → '\n' ∉ line.data → Contains tc ("\n" ++ line) →
          Contains t ("\n\t" ++ line)) ∧
        ('\n' ∉ text.data →
          (∃ lead : String, '\n' ∉ lead.data ∧
            Contains tc ("\n" ++ (lead ++ ("\t- log: " ++ text))) ∧
            Contains t ("\n\t" ++ (lead ++ ("\t- log: " ++ text)))) ∧
          ∀ pre post, cfl.children = pre ++ Child.note text :: post →
            (∀ x ∈ pre, x.plain = true) → Contains t ("\n\t\t- log: " ++ text))) := by
  obtain ⟨n0, t, ht0⟩ := GetText_returns_of_acyclic indent hac hgS
  cases n0 with
  | zero => simp [GoError.GetText] at ht0
  | succ k =>
    obtain ⟨ts, -, hform, s, hs, hrs⟩ := GetText_flow_bullets hg ht0 hchild
    simp only [rendersText, GoError.hasGetText, true_and] at hrs
    rcases hrs with ⟨tc, htc, hstc⟩ | ⟨hcontra, -⟩
    swap
    · cases hcontra
    cases k with
    | zero => simp [GoError.GetText] at htc
    | succ j =>
      obtain ⟨ts1, hts1, hform1, s1, hs1, hrs1⟩ := GetText_flow_bullets hc htc hnote
      simp only [rendersText] at hrs1
      have hnoteIn : Contains tc ("\t- log: " ++ text ++ "\n") := by
        rw [hform1, ← hrs1]
        exact contains_append_left _ (contains_concatAll hs1)
      have hcIn : Contains t ("\t- " ++ indent tc) := by
        rw [hform, ← hstc]
        exact contains_append_left _ (contains_concatAll hs)
      have hline : IndentsLines indent → ∀ line : String, line ≠ "" → '\n' ∉ line.data →
          Contains tc ("\n" ++ line) → Contains t ("\n\t" ++ line) := by
        intro hind line hne hl hin
        exact hcIn.trans (contains_append_left _ (hind tc line hne hl hin))
      have hbullet : ("\t- log: " ++ text) ≠ "" := by
        intro hempty
        have hdata := congrArg String.data hempty
        simp [String.data_append] at hdata
      have hbulletLine : '\n' ∉ text.data → '\n' ∉ ("\t- log: " ++ text).data := by
        intro htext
        simp only [String.data_append, List.mem_append, not_or]
        exact ⟨by decide, htext⟩
      refine ⟨j + 1, t, tc, fun m hm => ?_, hnoteIn, hcIn,
        fun hind => ⟨hline hind, fun htext => ⟨?_, ?_⟩⟩⟩
      · exact ⟨GetText_mono indent h (j + 1 + 1) (m + 1) _ t (by omega) ht0,
          GetText_mono indent h (j + 1) m _ tc hm htc⟩
      · have hhd : '\n' ∈ ("Flow " ++ cfl.Name ++ ":\n").data := by
          simp [String.data_append]
        rw [hrs1] at hs1
        obtain ⟨lead, hlead, hin⟩ := note_line _ hhd ts1 text hs1
        rw [← hform1] at hin
        refine ⟨lead, hlead, hin, hline hind _ ?_ ?_ hin⟩
        · intro hempty
          have hdata := congrArg String.data hempty
          simp [String.data_append] at hdata
        · simp only [String.data_append, List.mem_append, not_or] at hbulletLine ⊢
          exact ⟨hlead, hbulletLine htext⟩
      · intro pre post hsplit hplain
        have hstart : Contains tc ("\n" ++ ("\t- log: " ++ text)) := by
          rw [hform1]
          rw [hsplit] at hts1
          exact note_starts_line text post pre ts1 _ hts1 hplain
            ⟨"Flow " ++ cfl.Name ++ ":", by
              have hnl : ":\n" = ":" ++ "\n" := by decide
              rw [String.append_assoc _ ":" "\n", ← hnl]⟩
        have hfinal := hline hind _ hbullet (hbulletLine htext) hstart
        have heq : "\n\t" ++ ("\t- log: " ++ text) = "\n\t\t- log: " ++ text := by
          rw [← String.append_assoc]; rfl
        rw [heq] at hfinal
        exact hfinal

/-- The flow "database error" holds the flow "login check", which holds the note
"started": with a tab after every newline the note's line is behind two tabs. -/
theorem nested_note_indented_witness :
    ∃ n t tc,
      (∀ m, n ≤ m → Flow.GetText tabIndent nestedHeap (m + 1) 1 = some t ∧
        Flow.GetText tabIndent nestedHeap m 0 = some tc) ∧
      Contains tc ("\t- log: " ++ "started" ++ "\n") ∧
      Contains t ("\t- " ++ tabIndent tc) ∧
      Contains t ("\n\t\t- log: " ++ "started") := by
  obtain ⟨n, t, tc, hret, hnote, hnested, htabs⟩ :=
    nested_note_indented tabIndent nestedHeap (fun p => p) [0, 1] (by decide) 1 0
      { Name := "database error", options := defaultOptions, children := [.error (.flow 0)],
        errors := [], flows := [0], logs := [] }
      { Name := "login check", options := defaultOptions, children := [.note "started"],
        errors := [], flows := [], logs := ["started"] }
      "started" (by decide) (by decide) (by decide) (by decide) (by decide)
  exact ⟨n, t, tc, hret, hnote, hnested,
    ((htabs tabIndent_indentsLines).2 (by decide)).2 [] [] rfl (fun x hx => by cases hx)⟩

/-- C14 (as stated, refuted): in `selfNestedHeap` the flow "database error" holds
the flow "login check", which holds the note "started", and after `g.Add(g)` it
holds itself: `GetText()` returns no text on it at any depth, whatever
`rwstrings.Indent` is, so the note is not rendered at all. -/
theorem nested_note_indented_counterexample :
    selfNestedHeap.deref 1 = some
        { Name := "database error", options := defaultOptions,
          children := [.error (.flow 0), .error (.flow 1)], errors := [.flow 1],
          flows := [0], logs := [] } ∧
      selfNestedHeap.deref 0 = some
        { Name := "login check", options := defaultOptions, children := [.note "started"],
          errors := [], flows := [], logs := ["started"] } ∧
      ∀ (indent : String → String) n, Flow.GetText indent selfNestedHeap n 1 = none := by
  have hself : selfNestedHeap.deref 1 = some
      { Name := "database error", options := defaultOptions,
        children := [.error (.flow 0), .error (.flow 1)], errors := [.flow 1],
        flows := [0], logs := [] } := by decide
  refine ⟨hself, by decide, ?_⟩
  exact (no_text_of_cycle selfNestedHeap 1 1 _ _ hself hself
    (.flow 1) (by decide) rfl (.flow 1) (by decide) rfl).2

theorem lineIndentChars_line (line b : List Char) (hline : '\n' ∉ line) :
    lineIndentChars (line ++ b) = line ++ lineIndentChars b := by
  induction line with
  | nil => rfl
  | cons ch rest ih =>
    have hch : ch ≠ '\n' := fun heq => hline (heq ▸ List.mem_cons_self _ _)
    have hrest : '\n' ∉ rest := fun hmem => hline (List.mem_cons_of_mem _ hmem)
    show lineIndentChars (ch :: (rest ++ b)) = ch :: (rest ++ lineIndentChars b)
    rw [lineIndentChars]
    simp [hch, ih hrest]

theorem lineIndentChars_newline (a rest : List Char) (hrest : rest ≠ []) :
    ∃ a1, lineIndentChars (a ++ '\n' :: rest) = a1 ++ '\n' :: '\t' :: lineIndentChars rest := by
  induction a with
  | nil => exact ⟨[], by simp [lineIndentChars, hrest]⟩
  | cons ch a ih =>
    obtain ⟨a1, ha1⟩ := ih
    by_cases hc : ch = '\n'
    · refine ⟨'\n' :: '\t' :: a1, ?_⟩
      show lineIndentChars (ch :: (a ++ '\n' :: rest)) = _
      rw [lineIndentChars]
      simp [hc, ha1]
    · refine ⟨ch :: a1, ?_⟩
      show lineIndentChars (ch :: (a ++ '\n' :: rest)) = _
      rw [lineIndentChars]
      simp [hc, ha1]

/-- The function `lineIndent` has the contract `IndentsLines`. -/
theorem lineIndent_indentsLines : IndentsLines lineIndent := by
  intro s line hne hline hs
  obtain ⟨a, b, hab⟩ := hs
  have hnl : "\n".data = ['\n'] := rfl
  have hnt : "\n\t".data = ['\n', '\t'] := rfl
  have hdata : s.data = a ++ '\n' :: (line.data ++ b) := by
    rw [← hab]
    simp [String.data_append, hnl]
  have hline0 : line.data ++ b ≠ [] := by
    intro hnil
    exact hne (String.ext (List.append_eq_nil.mp hnil).1)
  obtain ⟨a1, ha1⟩ := lineIndentChars_newline a (line.data ++ b) hline0
  refine ⟨a1, lineIndentChars b, ?_⟩
  simp only [lineIndent, hdata, ha1, lineIndentChars_line line.data b hline, String.data_append,
    hnt]
  simp

set_option maxRecDepth 100000 in
/-- The contract `IndentsLines` leaves open where the bullet behind a nested flow
starts.  In `deepHeap` the note of "login check" follows the bullet of the nested
flow "root"; `tabIndent` and `lineIndent` both have the contract, and in the text
of "database error" the first puts the note's line behind three tabs and the
second behind two. -/
theorem note_behind_nested_flow :
    IndentsLines tabIndent ∧
    Flow.GetText tabIndent deepHeap 4 2 = some ("Flow database error:\n\t- Flow login check:"
      ++ "\n\t\t- Flow root: (nothing to report)\n\t\t\t- log: started\n\t") ∧
    ¬ Contains ("Flow database error:\n\t- Flow login check:"
      ++ "\n\t\t- Flow root: (nothing to report)\n\t\t\t- log: started\n\t")
      "\n\t\t- log: started" ∧
    IndentsLines lineIndent ∧
    Flow.GetText lineIndent deepHeap 4 2 = some ("Flow database error:\n\t- Flow login check:"
      ++ "\n\t\t- Flow root: (nothing to report)\n\t\t- log: started\n") :=
  ⟨tabIndent_indentsLines, by decide, by decide, lineIndent_indentsLines, by decide⟩

/-! ## Rendering in a heap that has grown -/

/-- The compact text of an error value stays what it is when flows are added to
the heap and the flows it walks are left as they are. -/
theorem Error_extend {h h1 : Heap}
    (hext : ∀ q fl, h.deref q = some fl → h1.deref q = some fl) (n : Nat) :
    ∀ e s, GoError.Error h n e = some s → GoError.Error h1 n e = some s := by
  induction n with
  | zero => intro e s hs; simp [GoError.Error] at hs
  | succ n ih =>
    intro e s hs
    cases e with
    | ext msg text => simpa [GoError.Error] using hs
    | labelled err label fname trace =>
      rw [Error_labelled] at hs ⊢
      cases hin : GoError.Error h n err with
      | none => simp [hin] at hs
      | some t => rw [ih err t hin]; simpa [hin] using hs
    | flow p =>
      simp only [GoError.Error] at hs ⊢
      cases hd : h.deref p with
      | none => simp [hd] at hs
      | some fl =>
        simp only [hd] at hs
        simp only [hext p fl hd]
        cases he : collect (GoError.Error h n) fl.errors with
        | none => simp [he] at hs
        | some es =>
          cases hc : collect (compactChild (GoError.Error h n)) fl.children with
          | none => simp [he, hc] at hs
          | some cs =>
            rw [collect_mono (fun a _ s hs => ih a s hs) he,
              collect_mono (fun c _ s hs => compactChild_mono ih c s hs) hc]
            simpa [he, hc] using hs

/-- The human-readable text of an error value stays what it is when flows are
added to the heap and the flows it walks are left as they are. -/
theorem GetText_extend (indent : String → String) {h h1 : Heap}
    (hext : ∀ q fl, h.deref q = some fl → h1.deref q = some fl) (n : Nat) :
    ∀ e s, GoError.GetText indent h n e = some s → GoError.GetText indent h1 n e = some s := by
  induction n with
  | zero => intro e s hs; simp [GoError.GetText] at hs
  | succ n ih =>
    intro e s hs
    cases e with
    | ext msg text => simpa [GoError.GetText] using hs
    | labelled err label fname trace =>
      simp only [GoError.GetText] at hs ⊢
      cases hg : err.hasGetText with
      | true =>
        simp only [hg, if_true] at hs ⊢
        cases hin : GoError.GetText indent h n err with
        | none => simp [hin] at hs
        | some t => rw [ih err t hin]; simpa [hin] using hs
      | false =>
        simp only [hg] at hs ⊢
        cases hin : GoError.Error h n err with
        | none => simp [hin] at hs
        | some t => rw [Error_extend hext n err t hin]; simpa [hin] using hs
    | flow p =>
      simp only [GoError.GetText] at hs ⊢
      cases hd : h.deref p with
      | none => simp [hd] at hs
      | some fl =>
        simp only [hd] at hs
        simp only [hext p fl hd]
        cases hc : collect (textChild indent (GoError.GetText indent h n) (GoError.Error h n))
            fl.children with
        | none => simp [hc] at hs
        | some cs =>
          rw [collect_mono (fun c _ s hs =>
            textChild_mono indent ih (Error_extend hext n) c s hs) hc]
          simpa [hc] using hs

/-- An error without `GetText` is an error from outside the package, and
`Error()` returns on it in one call. -/
theorem plain_error {e : GoError} (hg : e.hasGetText = false) :
    ∃ msg, e = .ext msg none := by
  cases e with
  | ext msg text =>
    cases text with
    | none => exact ⟨msg, rfl⟩
    | some t => simp [GoError.hasGetText] at hg
  | labelled err label fname trace => simp [GoError.hasGetText] at hg
  | flow p => simp [GoError.hasGetText] at hg

/-! ## The scenario of the test: Flow, Log, Check, Abort -/

/-- The human-readable text of a LabelledError that wraps an error without
`GetText`: the label, the message, a newline, and the indented trace with a
newline when there is one. -/
theorem GetText_labelled_plain (indent : String → String) (h : Heap) (n : Nat)
    (msg L fname : String) (trace : Option String) :
    GoError.GetText indent h (n + 2) (.labelled (.ext msg none) L fname trace)
      = some (L ++ ": " ++ msg ++ "\n" ++ (trace.map (fun tr => indent tr ++ "\n")).getD "") := by
  cases trace with
  | none => simp [GoError.GetText, GoError.hasGetText, GoError.Error]
  | some tr => simp [GoError.GetText, GoError.hasGetText, GoError.Error]

/-- The record of the flow that `parent.Flow(N)` makes, after `c.Log(note)` and
`c.Check(err, L)`. -/
theorem scenario_record (h : Heap) (parent : FlowRef) (pfl : Flow) (N note L stack : String)
    (err : GoError) :
    (run (Flow.Flow h parent pfl N).1
        [((Flow.Flow h parent pfl N).2, .Log note),
         ((Flow.Flow h parent pfl N).2, .Check (some err) L stack)]).deref
        (Flow.Flow h parent pfl N).2
      = some
        { Name := N, options := pfl.options,
          children := [.error (.flow parent), .note note,
            .error (.labelled err L N
              (if pfl.options.FlowCheckWriteStack then some stack else none))],
          errors := [.labelled err L N
            (if pfl.options.FlowCheckWriteStack then some stack else none)],
          flows := [parent], logs := [note] } ∧
    ∀ q fl, h.deref q = some fl →
      (run (Flow.Flow h parent pfl N).1
        [((Flow.Flow h parent pfl N).2, .Log note),
         ((Flow.Flow h parent pfl N).2, .Check (some err) L stack)]).deref q = some fl := by
  have h0 := Flow_deref_new h parent pfl N
  have h1 := invoke_self (.Log note) h0
  have h2 := invoke_self (.Check (some err) L stack) h1
  constructor
  · simp only [run]
    rw [h2]
    cases hopt : pfl.options.FlowCheckWriteStack <;>
      simp [Op.effect, Flow.Check, Flow.Log, Flow.addLog, Flow.addError, Flow.add, Flow.addFlow,
        FlowOptions.newRecord, LabelledError.toError, hopt]
  · intro q fl hq
    have hne : (Flow.Flow h parent pfl N).2 ≠ q := by
      rw [Flow_eq]
      exact Nat.ne_of_gt (deref_lt hq)
    simp only [run]
    exact invoke_other _ _ hne (invoke_other _ _ hne (Flow_deref_old parent pfl N hq))

/-- C15 (amended): let `parent` belong to a set of flows none of which reaches
itself and let `err` be an error without `GetText` (such as one made by
`errors.New`).  After `c := parent.Flow(N); c.Log(note); c.Check(err, L)` the
record of `parent` is what it was, the call `c.Abort(A)` returns a non-nil
error, the LabelledError that wraps `c`, and
the human-readable text of that error is returned and contains the header
`"Flow " + N + ":"`, the bullet `"\t- log: " + note + "\n"` of the note, and
the bullet `"\t- "` followed by `Indent` of the text of the labelled error, which
starts with `L + ": " + err.Error() + "\n"`; for an `Indent` that keeps the first
line of a text and a one-line `L + ": " + err.Error()` the text contains
`"\t- " + L + ": " + err.Error() + "\n"`. -/
theorem abort_text_after_check (indent : String → String) (h : Heap) (rank : FlowRef → Nat)
    (S : List FlowRef) (hac : h.acyclicOn rank S = true) (parent : FlowRef) (pfl : Flow)
    (N note L A stack : String) (err : GoError) (c : FlowRef) (h1 : Heap)
    (hS : parent ∈ S) (hp : h.deref parent = some pfl) (herr : err.hasGetText = false)
    (hc : c = (Flow.Flow h parent pfl N).2)
    (hh1 : h1 = run (Flow.Flow h parent pfl N).1
      [(c, .Log note), (c, .Check (some err) L stack)]) :
    ∃ cfl erro le text msg shown,
      h1.deref parent = some pfl ∧ h1.deref c = some cfl ∧ cfl.errors = [le] ∧
      erro = GoError.labelled (.flow c) A N none ∧
      (∃ n out, ∀ m, n ≤ m → Flow.Abort indent h1 m c cfl A = some (erro, out) ∧
        GoError.GetText indent h1 m erro = some text) ∧
      Contains text ("Flow " ++ N ++ ":") ∧
      Contains text ("\t- log: " ++ note ++ "\n") ∧
      GoError.Error h1 1 err = some msg ∧
      (∀ m, 2 ≤ m → GoError.GetText indent h1 m le = some shown) ∧
      (∃ r, shown = L ++ ": " ++ msg ++ "\n" ++ r) ∧
      Contains text ("\t- " ++ indent shown) ∧
      (KeepsFirstLine indent → '\n' ∉ (L ++ ": " ++ msg).data →
        Contains text ("\t- " ++ (L ++ ": " ++ msg) ++ "\n")) := by
  subst hc
  obtain ⟨hrec, hext⟩ := scenario_record h parent pfl N note L stack err
  rw [← hh1] at hrec hext
  obtain ⟨msg, hmsg⟩ := plain_error herr
  subst hmsg
  obtain ⟨n0, tp, htp0⟩ := GetText_returns_of_acyclic indent hac hS
  have htp : ∀ m, n0 ≤ m → GoError.GetText indent h1 m (.flow parent) = some tp :=
    fun m hm => GetText_mono indent h1 n0 m _ tp hm (GetText_extend indent hext n0 _ tp htp0)
  have hshown : ∀ m, 2 ≤ m → GoError.GetText indent h1 m
      (.labelled (.ext msg none) L N (if pfl.options.FlowCheckWriteStack then some stack else none))
      = some (L ++ ": " ++ msg ++ "\n" ++
          ((if pfl.options.FlowCheckWriteStack then some stack else none).map
            (fun tr => indent tr ++ "\n")).getD "") :=
    fun m hm => GetText_mono indent h1 2 m _ _ hm (GetText_labelled_plain indent h1 0 msg L N _)
  generalize hsh : L ++ ": " ++ msg ++ "\n" ++
      ((if pfl.options.FlowCheckWriteStack then some stack else none).map
        (fun tr => indent tr ++ "\n")).getD "" = shown at hshown
  generalize hle : GoError.labelled (.ext msg none) L N
      (if pfl.options.FlowCheckWriteStack then some stack else none) = le at hrec hshown
  have hctext : ∀ m, max n0 2 ≤ m → GoError.GetText indent h1 (m + 1)
      (.flow (Flow.Flow h parent pfl N).2) = some ("Flow " ++ N ++ ":\n" ++
        concatAll ["\t- " ++ indent tp, "\t- log: " ++ note ++ "\n", "\t- " ++ indent shown]) := by
    intro m hm
    apply (GetText_flow_iff indent h1 m _ _ hrec _).mpr
    refine ⟨["\t- " ++ indent tp, "\t- log: " ++ note ++ "\n", "\t- " ++ indent shown],
      .cons ?_ (.cons ?_ (.cons ?_ .nil)), by simp⟩
    · exact Or.inl ⟨rfl, tp, htp m (le_trans (le_max_left _ _) hm), rfl⟩
    · rfl
    · have hg : le.hasGetText = true := by rw [← hle]; rfl
      exact Or.inl ⟨hg, shown, hshown m (le_trans (le_max_right _ _) hm), rfl⟩
  generalize hbody : "Flow " ++ N ++ ":\n" ++
      concatAll ["\t- " ++ indent tp, "\t- log: " ++ note ++ "\n", "\t- " ++ indent shown]
      = body at hctext
  have herro : ∀ m, max n0 2 + 2 ≤ m → GoError.GetText indent h1 m
      (.labelled (.flow (Flow.Flow h parent pfl N).2) A N none) = some (A ++ ": " ++ body) := by
    intro m hm
    apply GetText_mono indent h1 (max n0 2 + 2) m _ _ hm
    rw [GetText_labelled_flow, hctext (max n0 2) (le_refl _)]
    rfl
  have hinBody : ∀ part, Contains body part → Contains (A ++ ": " ++ body) part :=
    fun part hpart => contains_append_left _ hpart
  have hbullet : ∀ b ∈ ["\t- " ++ indent tp, "\t- log: " ++ note ++ "\n", "\t- " ++ indent shown],
      Contains body b := by
    intro b hb
    rw [← hbody]
    exact contains_append_left _ (contains_concatAll hb)
  have hshownIn : Contains body ("\t- " ++ indent shown) := hbullet _ (by simp)
  refine ⟨_, _, le, A ++ ": " ++ body, msg, shown, hext parent pfl hp, hrec, rfl, rfl, ?_,
    hinBody _ ?_,
    hinBody _ (hbullet _ (by simp)), rfl, hshown, ⟨_, hsh.symm⟩, hinBody _ hshownIn, ?_⟩
  · cases hopt : pfl.options.PrintStderrOnAbort with
    | false =>
      refine ⟨max n0 2 + 2, none, fun m hm => ⟨?_, herro m hm⟩⟩
      simp [Flow.Abort, hopt, LabelledError.toError]
    | true =>
      refine ⟨max n0 2 + 2, some (A ++ ": " ++ body), fun m hm => ⟨?_, herro m hm⟩⟩
      simp only [Flow.Abort, hopt, LabelledError.GetText, LabelledError.toError, if_true,
        herro m hm]
  · rw [← hbody]
    have hnl : ":\n" = ":" ++ "\n" := by decide
    have hhead : "Flow " ++ N ++ ":\n" = ("Flow " ++ N ++ ":") ++ "\n" := by
      rw [String.append_assoc _ ":" "\n", ← hnl]
    rw [hhead]
    exact contains_append_right _ (contains_left _ _)
  · intro hkeep hone
    obtain ⟨r, hr⟩ := hkeep (L ++ ": " ++ msg)
      (((if pfl.options.FlowCheckWriteStack then some stack else none).map
        (fun tr => indent tr ++ "\n")).getD "") hone
    rw [hsh] at hr
    apply hinBody
    refine hshownIn.trans ?_
    rw [hr]
    refine ⟨[], r.data, ?_⟩
    simp [String.data_append]

/-- The path `systemErr` of `fakeLoginCheck` with a tab after every newline: the
text of `f2.Abort("system")` contains the header of "database error", the bullet
of the note and the bullet of the labelled error. -/
theorem abort_text_after_check_witness :
    ∃ text,
      (∃ n, ∀ m, n ≤ m → GoError.GetText tabIndent
        (run (Flow.Flow loginHeap 0 loginRecord "database error").1
          [(1, .Log "flow diverted from login check"),
           (1, .Check (some databaseError) "get user record" "stack")]) m
        (.labelled (.flow 1) "system" "database error" none) = some text) ∧
      Contains text ("Flow " ++ "database error" ++ ":") ∧
      Contains text ("\t- log: " ++ "flow diverted from login check" ++ "\n") ∧
      Contains text
        ("\t- " ++ ("get user record" ++ ": " ++ "database: generic database error") ++ "\n") := by
  obtain ⟨cfl, erro, le, text, msg, shown, -, -, -, herro, ⟨n, out, hret⟩, hhead, hnote, hmsg,
      -, -, -, hlit⟩ :=
    abort_text_after_check tabIndent loginHeap (fun p => p) [0] (by decide) 0 loginRecord
      "database error" "flow diverted from login check" "get user record" "system" "stack"
      databaseError 1 _ (by decide) rfl rfl rfl rfl
  have hm : "database: generic database error" = msg := Option.some.inj hmsg
  subst hm
  subst herro
  exact ⟨text, ⟨n, fun m hm => (hret m hm).2⟩, hhead, hnote,
    hlit tabIndent_keepsFirstLine (by decide)⟩

set_option maxRecDepth 100000 in
/-- C15 (as stated, refuted): in `lookupHeap` the error checked into the child is
`q.Done("find")`, a LabelledError with `GetText`: its `Error()` is
`find: flow(lookup): {database: generic database error}`, and the text of
`c.Abort("system")`, with a tab after every newline, shows the human-readable
text of the error under the label and does not contain
`get user record: ` followed by that `Error()` text.  And in `selfParentHeap`,
where the parent holds itself, `GetText()` on the error that `c.Abort("system")`
returns gives no text at any depth, whatever `rwstrings.Indent` is. -/
theorem abort_text_after_check_counterexample :
    (Flow.Done 1 lookupRecord "find" = some lookupError ∧
      lookupError.hasGetText = true ∧
      GoError.Error lookupHeap 3 lookupError
        = some "find: flow(lookup): \x7bdatabase: generic database error\x7d" ∧
      GoError.GetText tabIndent lookupHeap 6 (.labelled (.flow 2) "system" "database error" none)
        = some ("system: Flow database error:\n\t- Flow login check: (nothing to report)\n\t"
          ++ "\t- log: flow diverted\n\t- get user record: find: Flow lookup:\n\t"
          ++ "\t- error: database: generic database error\n\t") ∧
      ¬ Contains ("system: Flow database error:\n\t- Flow login check: (nothing to report)\n\t"
          ++ "\t- log: flow diverted\n\t- get user record: find: Flow lookup:\n\t"
          ++ "\t- error: database: generic database error\n\t")
        ("get user record: "
          ++ "find: flow(lookup): \x7bdatabase: generic database error\x7d")) ∧
    (selfParentHeap.deref 0 = some
        { Name := "login check", options := defaultOptions, children := [.error (.flow 0)],
          errors := [.flow 0], flows := [], logs := [] } ∧
      ∀ (indent : String → String) n, GoError.GetText indent selfParentHeap n
        (.labelled (.flow 1) "system" "database error" none) = none) := by
  have hparent : selfParentHeap.deref 0 = some
      { Name := "login check", options := defaultOptions, children := [.error (.flow 0)],
        errors := [.flow 0], flows := [], logs := [] } := by decide
  have hchild : selfParentHeap.deref 1 = some
      { Name := "database error", options := defaultOptions,
        children := [.error (.flow 0), .note "flow diverted",
          .error (.labelled databaseError "get user record" "database error" (some "stack"))],
        errors := [.labelled databaseError "get user record" "database error" (some "stack")],
        flows := [0], logs := ["flow diverted"] } := by decide
  refine ⟨⟨by decide, rfl, by decide, by decide, by decide⟩, hparent, fun indent n => ?_⟩
  have hp0 := (no_text_of_cycle selfParentHeap 0 0 _ _ hparent hparent
    (.flow 0) (by decide) rfl (.flow 0) (by decide) rfl).2 indent
  have hc1 : ∀ k, GoError.GetText indent selfParentHeap k (.flow 1) = none := by
    intro k
    cases k with
    | zero => rfl
    | succ k =>
      cases hs : GoError.GetText indent selfParentHeap (k + 1) (.flow 1) with
      | none => rfl
      | some s =>
        obtain ⟨s1, hs1⟩ := GetText_flow_child hchild hs (.flow 0) (by decide) rfl
        rw [hp0 k] at hs1
        cases hs1
  cases n with
  | zero => rfl
  | succ n => rw [GetText_labelled_flow, hc1 n]; rfl

end Gopheramework
